import Mathlib

/-
Verification development for a TOML parser (Rust crate `toml`, files
src/lexer.rs, src/parser.rs, src/toml.rs, src/lib.rs, src/error.rs).

The code is shallowly embedded: the input text is a `List Char` (the Rust
lexer holds `(text, pos)` and every scan function operates on
`&self.text[self.pos..]`; we pass that remainder around explicitly, and a
`(text, pos)` wrapper `Lexer` is defined as well for the peek contract).
Machine integers (`i64`) are `Int` with explicit range checks mirroring
`str::parse::<i64>` / `i64::from_str_radix`.  Fallible operations return
`Except Err`.  Rust panics (`unwrap`, `as_table_mut` on a non-table) are
modelled by `Err.panicked`; unbounded recursion is modelled with a fuel
parameter whose exhaustion yields `Err.fuel` (never hit by any execution
proved about below; the Rust code simply recurses).
-/

namespace TomlSpec

/-- Error type of the crate (src/error.rs has the single variant `Parse`);
`panicked` marks executions on which the Rust code would panic, and `fuel`
marks fuel exhaustion of the embedding (not a behaviour of the source). -/
inductive Err where
  | parse
  | panicked
  | fuel
deriving DecidableEq, Repr

/-- Token type of the lexer (src/lexer.rs, `enum Token`).  Date/time tokens
carry the matched source text; `float` carries the underscore-stripped
literal that Rust passes to `f64` parsing (no claim inspects the numeric
value of a float or a date). -/
inductive Token where
  | newline
  | equal
  | dot
  | comma
  | leftBrace
  | rightBrace
  | leftBracket
  | rightBracket
  | string (s : List Char)
  | integer (i : Int)
  | float (s : List Char)
  | bool (b : Bool)
  | offsetDateTime (s : List Char)
  | localDateTime (s : List Char)
  | localDate (s : List Char)
  | localTime (s : List Char)
deriving DecidableEq, Repr

/-- Posture hint (src/lexer.rs, `enum Posture`). -/
inductive Posture where
  | any
  | value
deriving DecidableEq, Repr

/-- Scanner context (src/lexer.rs, `struct Context { posture: Option<Posture> }`). -/
structure Context where
  posture : Option Posture
deriving DecidableEq, Repr

/-- Context::default() has `posture: None`. -/
def ctxDefault : Context := ⟨none⟩

/-- The context the parser uses for values (`posture = Some(Posture::Value)`). -/
def ctxValue : Context := ⟨some .value⟩

/-- The context with `posture = Some(Posture::Any)`. -/
def ctxAny : Context := ⟨some .any⟩

/-- Value tree (src/toml.rs, `enum Value`); `Table` is a `HashMap<String,
Value>`, modelled as an association list with replace-on-insert semantics
(key order in a HashMap is not observable). -/
inductive Value where
  | string (s : List Char)
  | integer (i : Int)
  | float (s : List Char)
  | bool (b : Bool)
  | offsetDateTime (s : List Char)
  | localDateTime (s : List Char)
  | localDate (s : List Char)
  | localTime (s : List Char)
  | array (a : List Value)
  | table (t : List (List Char × Value))

/-- Table alias (src/toml.rs `pub type Table = HashMap<String, Value>`). -/
abbrev Table := List (List Char × Value)

/-- HashMap::get, by exact key match. -/
def tblGet : Table → List Char → Option Value
  | [], _ => none
  | (k, v) :: t, key => if k = key then some v else tblGet t key

/-- HashMap::insert: replaces the value when the key is present. -/
def tblInsert : Table → List Char → Value → Table
  | [], k, v => [(k, v)]
  | (k1, v1) :: t, k, v => if k1 = k then (k1, v) :: t else (k1, v1) :: tblInsert t k v

/-- Whitespace skipped by the lexer (src/lexer.rs `scan_whitespace`: spaces and tabs). -/
def isWsChar (c : Char) : Bool := c == ' ' || c == '\t'

/-- Bare-key characters (src/lexer.rs `scan_bare_key`, class `[[:alnum:]-_]`). -/
def isBareChar (c : Char) : Bool := c.isAlphanum || c == '-' || c == '_'

/-- Whitespace class of the regex crate's `\s`, restricted to ASCII (the
only characters the source and its tests exercise). -/
def isRegexSpace (c : Char) : Bool :=
  c == ' ' || c == '\t' || c == '\n' || c == '\r' || c == '\x0b' || c == '\x0c'

/-- POSIX `[[:space:]]` class used in the line-continuation regex. -/
def isPosixSpace (c : Char) : Bool :=
  c == ' ' || c == '\t' || c == '\n' || c == '\r' || c == '\x0b' || c == '\x0c'

/-- Hexadecimal digit test (`[[:xdigit:]]`). -/
def isHexC (c : Char) : Bool :=
  c.isDigit || ('a' ≤ c && c ≤ 'f') || ('A' ≤ c && c ≤ 'F')

/-- Comment recognition (src/lexer.rs `scan_comment`, regex
`^#.*(\r\n|\n|$)`); returns the number of characters consumed, which
excludes the line ending (and excludes a `\r` that immediately precedes the
terminating `\n`, since `.` cannot match `\n` so the `\r\n` alternative of
the ending group claims it). -/
def scanComment : List Char → Option Nat
  | '#' :: r =>
    if (r.takeWhile (fun c => c ≠ '\n')).length = r.length then
      some (1 + (r.takeWhile (fun c => c ≠ '\n')).length)
    else if (r.takeWhile (fun c => c ≠ '\n')).getLast? = some '\r' then
      some (1 + (r.takeWhile (fun c => c ≠ '\n')).length - 1)
    else
      some (1 + (r.takeWhile (fun c => c ≠ '\n')).length)
  | _ => none

/-- Whitespace-and-comment skipping performed at the top of `Lexer::next`
(src/lexer.rs lines 52-57). -/
def skipTrivia (cs : List Char) : List Char :=
  match scanComment (cs.dropWhile isWsChar) with
  | some n => (cs.dropWhile isWsChar).drop n
  | none => cs.dropWhile isWsChar

/-- Newline recognition (src/lexer.rs `scan_newline`): `\r\n` or `\n`. -/
def scanNewline : List Char → Option (List Char)
  | '\r' :: '\n' :: r => some r
  | '\n' :: r => some r
  | _ => none

/-- Single-character punctuation (src/lexer.rs `scan_punct`). -/
def scanPunct (cs : List Char) : Option Token :=
  match cs with
  | c :: _ =>
    if c = '=' then some .equal
    else if c = '.' then some .dot
    else if c = '\x7b' then some .leftBrace
    else if c = '\x7d' then some .rightBrace
    else if c = '[' then some .leftBracket
    else if c = ']' then some .rightBracket
    else if c = ',' then some .comma
    else none
  | [] => none

/-- Bare keys (src/lexer.rs `scan_bare_key`, regex `^[[:alnum:]-_]+`):
a maximal nonempty run of bare-key characters, returned verbatim. -/
def scanBareKey (cs : List Char) : Option (Token × List Char) :=
  if (cs.takeWhile isBareChar).isEmpty then none
  else some (.string (cs.takeWhile isBareChar), cs.dropWhile isBareChar)

/-- Replacement of every (non-overlapping, leftmost-first) occurrence of the
two-character pattern `a b` by the single character `r`, as performed by
Rust `str::replace` for the escape sequences. -/
def rep2 (a b r : Char) : List Char → List Char
  | [] => []
  | [c] => [c]
  | c1 :: c2 :: rest =>
    if c1 = a ∧ c2 = b then r :: rep2 a b r rest
    else c1 :: rep2 a b r (c2 :: rest)

/-- The chain of `str::replace` calls applied to basic-string contents
(src/lexer.rs lines 248-255 and 290-297), in source order: `\b`, `\t`,
`\n`, `\f`, `\r`, `\"`, `\\`.  Note there is no replacement for `\uXXXX`. -/
def escapeChain (s : List Char) : List Char :=
  rep2 '\\' '\\' '\\'
    (rep2 '\\' '"' '"'
      (rep2 '\\' 'r' '\r'
        (rep2 '\\' 'f' '\x0c'
          (rep2 '\\' 'n' '\n'
            (rep2 '\\' 't' '\t'
              (rep2 '\\' 'b' '\x08' s))))))

/-- Body of a basic string after the opening quote (src/lexer.rs
`scan_basic_string`, regex content `(?:[^"\\\n]|\\(?:[btnfr"\\]|u[0-9a-fA-F]{4}))*`
followed by the closing quote).  Returns the raw (not yet unescaped)
content and the remainder after the closing quote. -/
def basicStrBody : List Char → Option (List Char × List Char)
  | '"' :: r => some ([], r)
  | '\n' :: _ => none
  | '\\' :: e :: r =>
    if e = 'b' ∨ e = 't' ∨ e = 'n' ∨ e = 'f' ∨ e = 'r' ∨ e = '"' ∨ e = '\\' then
      match basicStrBody r with
      | some (content, rest) => some ('\\' :: e :: content, rest)
      | none => none
    else if e = 'u' then
      match r with
      | h1 :: h2 :: h3 :: h4 :: r1 =>
        if isHexC h1 ∧ isHexC h2 ∧ isHexC h3 ∧ isHexC h4 then
          match basicStrBody r1 with
          | some (content, rest) => some ('\\' :: 'u' :: h1 :: h2 :: h3 :: h4 :: content, rest)
          | none => none
        else none
      | _ => none
    else none
  | [] => none
  | c :: r =>
    match basicStrBody r with
    | some (content, rest) => some (c :: content, rest)
    | none => none

/-- Basic strings (src/lexer.rs `scan_basic_string`): the escape chain is
applied to the raw content. -/
def scanBasicString : List Char → Option (Token × List Char)
  | '"' :: r =>
    match basicStrBody r with
    | some (content, rest) => some (.string (escapeChain content), rest)
    | none => none
  | _ => none

/-- Largest index `k` such that three consecutive `"` start at position `k`
(the greedy `.*` of the multiline-basic regex `^"{3}.*"{3,}` makes the
match extend to the last such run; maximality of `k` forces the closing
`"{3,}` to consume exactly three quotes). -/
def lastTriple : List Char → Option Nat
  | '"' :: '"' :: '"' :: r =>
    match lastTriple ('"' :: '"' :: r) with
    | some k => some (k + 1)
    | none => some 0
  | _ :: r =>
    match lastTriple r with
    | some k => some (k + 1)
    | none => none
  | [] => none

/-- Length of the line-continuation match at the head of the list
(src/lexer.rs regex `LINE_ENDING_SLASH` = `\\[ \t]*(?:\r\n|\n)[[:space:]]*`),
or `none`.  The trailing whitespace run is greedy. -/
def lcMatch (cs : List Char) : Option Nat :=
  match cs with
  | '\\' :: r =>
    let sp := r.takeWhile isWsChar
    match r.dropWhile isWsChar with
    | '\r' :: '\n' :: r2 => some (1 + sp.length + 2 + (r2.takeWhile isPosixSpace).length)
    | '\n' :: r2 => some (1 + sp.length + 1 + (r2.takeWhile isPosixSpace).length)
    | _ => none
  | _ => none

/-- Fuelled worker for `Regex::replace_all` with the line-continuation
pattern and an empty replacement: scan left to right, deleting each match
and continuing after it. -/
def lcGo : Nat → List Char → List Char
  | 0, _ => []
  | _ + 1, [] => []
  | fuel + 1, c :: r =>
    match lcMatch (c :: r) with
    | some n => lcGo fuel ((c :: r).drop n)
    | none => c :: lcGo fuel r

/-- Removal of every line-continuation match (`LINE_ENDING_SLASH.replace_all(content, "")`). -/
def lcRemoveAll (cs : List Char) : List Char := lcGo (cs.length + 1) cs

/-- Loop of `Lexer::contains_three_consec_delims` (src/lexer.rs lines
567-591): counts consecutive `"` with `\"` resetting the count. -/
def c3Loop : Nat → List Char → Bool
  | count, [] => count = 3
  | count, '"' :: r => if count + 1 = 3 then true else c3Loop (count + 1) r
  | _, '\\' :: '"' :: r => c3Loop 0 r
  | _, _ :: r => c3Loop 0 r

/-- Lexer::contains_three_consec_delims. -/
def containsThreeConsecDelims (cs : List Char) : Bool := c3Loop 0 cs

/-- Multiline basic strings (src/lexer.rs `scan_multiline_basic_string`):
regex `^"{3}.*"{3,}` (with `s` flag, greedy), then slicing off the three
delimiters at each end, stripping one leading `\n`, removing
line-continuations, rejecting contents that still hold three consecutive
unescaped quotes, and finally applying the escape chain. -/
def scanMultilineBasicString : List Char → Option (Token × List Char)
  | '"' :: '"' :: '"' :: cs =>
    match lastTriple cs with
    | none => none
    | some k =>
      let rest := cs.drop (k + 3)
      let content := cs.take k
      let content := match content with
        | '\n' :: c => c
        | c => c
      let content := lcRemoveAll content
      if containsThreeConsecDelims content then none
      else some (.string (escapeChain content), rest)
  | _ => none

/-- Body of a literal string (src/lexer.rs `scan_literal_string`, regex
`^'([^'\n]*)'`). -/
def litStrBody : List Char → Option (List Char × List Char)
  | '\'' :: r => some ([], r)
  | '\n' :: _ => none
  | [] => none
  | c :: r =>
    match litStrBody r with
    | some (content, rest) => some (c :: content, rest)
    | none => none

/-- Literal strings: content returned verbatim. -/
def scanLiteralString : List Char → Option (Token × List Char)
  | '\'' :: r =>
    match litStrBody r with
    | some (content, rest) => some (.string content, rest)
    | none => none
  | _ => none

/-- Smallest index `k` such that three consecutive `'` start at position `k`
(the lazy `.*?` of the multiline-literal regex stops at the first such
run). -/
def firstTriple : List Char → Option Nat
  | '\'' :: '\'' :: '\'' :: _ => some 0
  | _ :: r =>
    match firstTriple r with
    | some k => some (k + 1)
    | none => none
  | [] => none

/-- Multiline literal strings (src/lexer.rs `scan_multiline_literal_string`,
regex `^'{3}\n?.*?'{3,}`): the close delimiter greedily takes the whole
apostrophe run at the first triple, the code slices three characters off
each end of the match and strips one leading `\n`. -/
def scanMultilineLiteralString : List Char → Option (Token × List Char)
  | '\'' :: '\'' :: '\'' :: cs =>
    match firstTriple cs with
    | none => none
    | some k =>
      let m := ((cs.drop k).takeWhile (fun c => c = '\'')).length
      let rest := cs.drop (k + m)
      let content := cs.take (k + m - 3)
      let content := match content with
        | '\n' :: c => c
        | c => c
      some (.string content, rest)
  | _ => none

/-- Greedy `(_?d)*` matcher used by all numeric scans: repeatedly consume an
optional underscore followed by a digit of the given class; returns the
matched run (with its underscores) and the remainder. -/
def uDigits (isD : Char → Bool) : List Char → List Char × List Char
  | [] => ([], [])
  | c :: r =>
    if c = '_' then
      match r with
      | c2 :: r2 =>
        if isD c2 then
          match uDigits isD r2 with
          | (a, b) => ('_' :: c2 :: a, b)
        else ([], c :: r)
      | [] => ([], c :: r)
    else if isD c then
      match uDigits isD r with
      | (a, b) => (c :: a, b)
    else ([], c :: r)

/-- Underscore removal performed before every numeric conversion
(`raw.replace("_", "")`). -/
def stripU (cs : List Char) : List Char := cs.filter (fun c => c ≠ '_')

/-- Numeric value of one digit in any radix up to 16. -/
def digitVal (c : Char) : Nat :=
  if c.isDigit then c.toNat - '0'.toNat
  else if 'a' ≤ c ∧ c ≤ 'f' then 10 + c.toNat - 'a'.toNat
  else if 'A' ≤ c ∧ c ≤ 'F' then 10 + c.toNat - 'A'.toNat
  else 0

/-- Interpretation of a digit string in the given base (this is the
specification-side meaning of a numeral; `i64::from_str_radix` and
`str::parse::<i64>` compute exactly this, with a range check). -/
def natOfDigits (base : Nat) (ds : List Char) : Nat :=
  ds.foldl (fun a c => a * base + digitVal c) 0

/-- Largest i64 value. -/
def maxI64 : Nat := 2 ^ 63 - 1

/-- i64::from_str_radix on an unsigned digit string: positional value with
an overflow check. -/
def parseRadixI64 (base : Nat) (ds : List Char) : Option Int :=
  let n := natOfDigits base ds
  if n ≤ maxI64 then some (Int.ofNat n) else none

/-- str::parse::<i64> on an optional sign followed by digits: signed value
with the asymmetric i64 range check. -/
def parseDecI64 (sign : List Char) (ds : List Char) : Option Int :=
  let n := natOfDigits 10 ds
  if sign = ['-'] then
    if n ≤ 2 ^ 63 then some (-(Int.ofNat n)) else none
  else
    if n ≤ maxI64 then some (Int.ofNat n) else none

/-- Optional sign (`(?:\+|-)?`). -/
def matchSign : List Char → List Char × List Char
  | '+' :: r => (['+'], r)
  | '-' :: r => (['-'], r)
  | r => ([], r)

/-- Integer/float whole part `(?:0|[1-9](?:_?[0-9])*)`: a lone `0`, or a
nonzero digit followed by underscore-separated digits. -/
def matchIntPart : List Char → Option (List Char × List Char)
  | '0' :: r => some (['0'], r)
  | c :: r =>
    if '1' ≤ c ∧ c ≤ '9' then some (c :: (uDigits Char.isDigit r).1, (uDigits Char.isDigit r).2)
    else none
  | [] => none

/-- Float fraction `(?:\.[0-9](?:_?[0-9])*)?`. -/
def matchFrac : List Char → Option (List Char × List Char)
  | '.' :: c :: r =>
    if c.isDigit then some ('.' :: c :: (uDigits Char.isDigit r).1, (uDigits Char.isDigit r).2)
    else none
  | _ => none

/-- Float exponent `(?:[eE](?:\+|-)?[0-9](?:_?[0-9])*)?`. -/
def matchExp : List Char → Option (List Char × List Char)
  | e :: r =>
    if e = 'e' ∨ e = 'E' then
      match (matchSign r).2 with
      | c :: r2 =>
        if c.isDigit then
          some (e :: ((matchSign r).1 ++ c :: (uDigits Char.isDigit r2).1),
                (uDigits Char.isDigit r2).2)
        else none
      | [] => none
    else none
  | [] => none

/-- Decimal integers (src/lexer.rs `scan_integer`): sign and whole part,
underscores removed, then `str::parse::<i64>` (overflow is a parse error). -/
def scanInteger (cs : List Char) : Except Err (Option (Token × List Char)) :=
  let sg := matchSign cs
  match matchIntPart sg.2 with
  | none => .ok none
  | some (ip, rest) =>
    match parseDecI64 sg.1 (stripU ip) with
    | some v => .ok (some (.integer v, rest))
    | none => .error .parse

/-- Hexadecimal integers (src/lexer.rs `scan_integer_hex`, regex
`^0x[[:xdigit:]](?:_?[[:xdigit:]])*`). -/
def scanIntegerHex (cs : List Char) : Except Err (Option (Token × List Char)) :=
  match cs with
  | '0' :: 'x' :: c :: r =>
    if isHexC c then
      match parseRadixI64 16 (stripU (c :: (uDigits isHexC r).1)) with
      | some v => .ok (some (.integer v, (uDigits isHexC r).2))
      | none => .error .parse
    else .ok none
  | _ => .ok none

/-- Octal digit test. -/
def isOctC (c : Char) : Bool := '0' ≤ c && c ≤ '7'

/-- Octal integers (src/lexer.rs `scan_integer_octal`). -/
def scanIntegerOctal (cs : List Char) : Except Err (Option (Token × List Char)) :=
  match cs with
  | '0' :: 'o' :: c :: r =>
    if isOctC c then
      match parseRadixI64 8 (stripU (c :: (uDigits isOctC r).1)) with
      | some v => .ok (some (.integer v, (uDigits isOctC r).2))
      | none => .error .parse
    else .ok none
  | _ => .ok none

/-- Binary digit test. -/
def isBinC (c : Char) : Bool := c == '0' || c == '1'

/-- Binary integers (src/lexer.rs `scan_integer_binary`). -/
def scanIntegerBinary (cs : List Char) : Except Err (Option (Token × List Char)) :=
  match cs with
  | '0' :: 'b' :: c :: r =>
    if isBinC c then
      match parseRadixI64 2 (stripU (c :: (uDigits isBinC r).1)) with
      | some v => .ok (some (.integer v, (uDigits isBinC r).2))
      | none => .error .parse
    else .ok none
  | _ => .ok none

/-- Keyword check for `inf` / `nan` after an optional sign. -/
def matchWord3 (a b c : Char) : List Char → Option (List Char × List Char)
  | x :: y :: z :: r => if x = a ∧ y = b ∧ z = c then some ([x, y, z], r) else none
  | _ => none

/-- Floats (src/lexer.rs `scan_float`): the main regex demands at least one
of the fraction and exponent groups; otherwise the `inf` / `nan` regexes
are tried.  The token carries the underscore-stripped literal handed to
`f64` parsing (which cannot fail on these shapes). -/
def scanFloat (cs : List Char) : Except Err (Option (Token × List Char)) :=
  let sign := (matchSign cs).1
  let r1 := (matchSign cs).2
  match matchIntPart r1 with
  | some (ip, r2) =>
    let fr := matchFrac r2
    let r3 := match fr with
      | some (_, b) => b
      | none => r2
    let ex := matchExp r3
    let r4 := match ex with
      | some (_, b) => b
      | none => r3
    match fr, ex with
    | none, none => .ok none
    | _, _ =>
      let raw := sign ++ ip ++
        (match fr with
         | some (a, _) => a
         | none => []) ++
        (match ex with
         | some (a, _) => a
         | none => [])
      .ok (some (.float (stripU raw), r4))
  | none =>
    match matchWord3 'i' 'n' 'f' r1 with
    | some (w, rest) => .ok (some (.float (sign ++ w), rest))
    | none =>
      match matchWord3 'n' 'a' 'n' r1 with
      | some (w, rest) => .ok (some (.float (sign ++ w), rest))
      | none => .ok none

/-- Booleans (src/lexer.rs `scan_true`, regex `^true(?:$|\s)`): only the
four keyword characters are consumed. -/
def scanTrue : List Char → Option (Token × List Char)
  | 't' :: 'r' :: 'u' :: 'e' :: rest =>
    match rest with
    | [] => some (.bool true, [])
    | c :: _ => if isRegexSpace c then some (.bool true, rest) else none
  | _ => none

/-- Booleans (src/lexer.rs `scan_false`, regex `^false(?:$|\s)`). -/
def scanFalse : List Char → Option (Token × List Char)
  | 'f' :: 'a' :: 'l' :: 's' :: 'e' :: rest =>
    match rest with
    | [] => some (.bool false, [])
    | c :: _ => if isRegexSpace c then some (.bool false, rest) else none
  | _ => none

/-- Exactly-n-digits matcher (regex `\d{n}`), returning digits and rest. -/
def matchDigits : Nat → List Char → Option (List Char × List Char)
  | 0, r => some ([], r)
  | n + 1, c :: r =>
    if c.isDigit then
      match matchDigits n r with
      | some (ds, rest) => some (c :: ds, rest)
      | none => none
    else none
  | _ + 1, [] => none

/-- Optional fractional seconds `(?:\.\d+)?` (greedy). -/
def matchFracSecs : List Char → List Char × List Char
  | '.' :: c :: r =>
    if c.isDigit then ('.' :: c :: r.takeWhile Char.isDigit, r.dropWhile Char.isDigit)
    else ([], '.' :: c :: r)
  | r => ([], r)

/-- Shape `\d{4}-\d{2}-\d{2}` of a date. -/
def matchDateShape (cs : List Char) : Option (List Char × List Char) :=
  match matchDigits 4 cs with
  | some (y, r1) =>
    match r1 with
    | '-' :: r2 =>
      match matchDigits 2 r2 with
      | some (mo, r3) =>
        match r3 with
        | '-' :: r4 =>
          match matchDigits 2 r4 with
          | some (d, r5) => some (y ++ '-' :: mo ++ '-' :: d, r5)
          | none => none
        | _ => none
      | none => none
    | _ => none
  | none => none

/-- Shape `\d{2}:\d{2}:\d{2}(?:\.\d+)?` of a time. -/
def matchTimeShape (cs : List Char) : Option (List Char × List Char) :=
  match matchDigits 2 cs with
  | some (h, r1) =>
    match r1 with
    | ':' :: r2 =>
      match matchDigits 2 r2 with
      | some (mi, r3) =>
        match r3 with
        | ':' :: r4 =>
          match matchDigits 2 r4 with
          | some (s, r5) =>
            match matchFracSecs r5 with
            | (f, r6) => some (h ++ ':' :: mi ++ ':' :: (s ++ f), r6)
          | none => none
        | _ => none
      | none => none
    | _ => none
  | none => none

/-- Offset `(?:Z|[\+-]\d{2}:\d{2})`. -/
def matchOffsetShape : List Char → Option (List Char × List Char)
  | 'Z' :: r => some (['Z'], r)
  | c :: r =>
    if c = '+' ∨ c = '-' then
      match matchDigits 2 r with
      | some (h, r1) =>
        match r1 with
        | ':' :: r2 =>
          match matchDigits 2 r2 with
          | some (m, r3) => some (c :: h ++ ':' :: m, r3)
          | none => none
        | _ => none
      | none => none
    else none
  | [] => none

/-- Value of a fixed-width digit string. -/
def digitsNat (ds : List Char) : Nat := natOfDigits 10 ds

/-- Days in a month of the proleptic Gregorian calendar. -/
def daysInMonth (y m : Nat) : Nat :=
  if m = 2 then
    if y % 4 = 0 ∧ (y % 100 ≠ 0 ∨ y % 400 = 0) then 29 else 28
  else if m = 4 ∨ m = 6 ∨ m = 9 ∨ m = 11 then 30
  else 31

/-- Modelled from the behaviour of chrono's date validation: a `y-m-d`
digit triple is accepted when the month and day are in range (leap years
handled); chrono's further edge cases do not arise in this development. -/
def validDate (y mo d : Nat) : Bool :=
  decide (1 ≤ mo ∧ mo ≤ 12 ∧ 1 ≤ d ∧ d ≤ daysInMonth y mo)

/-- Modelled from the behaviour of chrono's time validation. -/
def validTime (h mi s : Nat) : Bool :=
  decide (h ≤ 23 ∧ mi ≤ 59 ∧ s ≤ 59)

/-- Date components out of a matched date shape. -/
def dateComps (ds : List Char) : Nat × Nat × Nat :=
  (digitsNat (ds.take 4), digitsNat ((ds.drop 5).take 2), digitsNat ((ds.drop 8).take 2))

/-- Time components out of a matched time shape. -/
def timeComps (ts : List Char) : Nat × Nat × Nat :=
  (digitsNat (ts.take 2), digitsNat ((ts.drop 3).take 2), digitsNat ((ts.drop 6).take 2))

/-- Offset date-times (src/lexer.rs `scan_offset_date_time`): the shape is
matched, the space separator is normalised to `T`, and the result of
`DateTime::parse_from_rfc3339` is modelled by the range checks; a shape
match that fails validation is `Error::Parse`. -/
def scanOffsetDateTime (cs : List Char) : Except Err (Option (Token × List Char)) :=
  match matchDateShape cs with
  | none => .ok none
  | some (ds, r1) =>
    match r1 with
    | sep :: r2 =>
      if sep = 'T' ∨ sep = ' ' then
        match matchTimeShape r2 with
        | none => .ok none
        | some (ts, r3) =>
          match matchOffsetShape r3 with
          | none => .ok none
          | some (os, r4) =>
            let raw := ds ++ 'T' :: (ts ++ os)
            match dateComps ds, timeComps ts with
            | (y, mo, d), (h, mi, s) =>
              if validDate y mo d ∧ validTime h mi s then
                .ok (some (.offsetDateTime raw, r4))
              else .error .parse
      else .ok none
    | [] => .ok none

/-- Local date-times (src/lexer.rs `scan_local_date_time`): the regex allows
the separator to be a space, but `NaiveDateTime::parse_from_str` with
format `%Y-%m-%dT%H:%M:%S%.f` then fails, so a space separator is a parse
error here. -/
def scanLocalDateTime (cs : List Char) : Except Err (Option (Token × List Char)) :=
  match matchDateShape cs with
  | none => .ok none
  | some (ds, r1) =>
    match r1 with
    | sep :: r2 =>
      if sep = 'T' ∨ sep = ' ' then
        match matchTimeShape r2 with
        | none => .ok none
        | some (ts, r3) =>
          match dateComps ds, timeComps ts with
          | (y, mo, d), (h, mi, s) =>
            if sep = 'T' ∧ validDate y mo d ∧ validTime h mi s then
              .ok (some (.localDateTime (ds ++ sep :: ts), r3))
            else .error .parse
      else .ok none
    | [] => .ok none

/-- Local dates (src/lexer.rs `scan_local_date`). -/
def scanLocalDate (cs : List Char) : Except Err (Option (Token × List Char)) :=
  match matchDateShape cs with
  | none => .ok none
  | some (ds, r1) =>
    match dateComps ds with
    | (y, mo, d) =>
      if validDate y mo d then .ok (some (.localDate ds, r1))
      else .error .parse

/-- Local times (src/lexer.rs `scan_local_time`). -/
def scanLocalTime (cs : List Char) : Except Err (Option (Token × List Char)) :=
  match matchTimeShape cs with
  | none => .ok none
  | some (ts, r1) =>
    match timeComps ts with
    | (h, mi, s) =>
      if validTime h mi s then .ok (some (.localTime ts, r1))
      else .error .parse

/-- The value-side scan chain of `Lexer::next` (src/lexer.rs lines 80-155),
tried in source order after the bare-key stage: multiline basic, basic,
multiline literal, literal, offset date-time, local date-time, local date,
local time, float, hex, octal, binary, decimal integer, true, false;
otherwise `Error::Parse`. -/
def lexValueScan (cs : List Char) : Except Err (Option Token) × List Char :=
  match scanMultilineBasicString cs with
  | some (t, rest) => (.ok (some t), rest)
  | none =>
  match scanBasicString cs with
  | some (t, rest) => (.ok (some t), rest)
  | none =>
  match scanMultilineLiteralString cs with
  | some (t, rest) => (.ok (some t), rest)
  | none =>
  match scanLiteralString cs with
  | some (t, rest) => (.ok (some t), rest)
  | none =>
  match scanOffsetDateTime cs with
  | .error e => (.error e, cs)
  | .ok (some (t, rest)) => (.ok (some t), rest)
  | .ok none =>
  match scanLocalDateTime cs with
  | .error e => (.error e, cs)
  | .ok (some (t, rest)) => (.ok (some t), rest)
  | .ok none =>
  match scanLocalDate cs with
  | .error e => (.error e, cs)
  | .ok (some (t, rest)) => (.ok (some t), rest)
  | .ok none =>
  match scanLocalTime cs with
  | .error e => (.error e, cs)
  | .ok (some (t, rest)) => (.ok (some t), rest)
  | .ok none =>
  match scanFloat cs with
  | .error e => (.error e, cs)
  | .ok (some (t, rest)) => (.ok (some t), rest)
  | .ok none =>
  match scanIntegerHex cs with
  | .error e => (.error e, cs)
  | .ok (some (t, rest)) => (.ok (some t), rest)
  | .ok none =>
  match scanIntegerOctal cs with
  | .error e => (.error e, cs)
  | .ok (some (t, rest)) => (.ok (some t), rest)
  | .ok none =>
  match scanIntegerBinary cs with
  | .error e => (.error e, cs)
  | .ok (some (t, rest)) => (.ok (some t), rest)
  | .ok none =>
  match scanInteger cs with
  | .error e => (.error e, cs)
  | .ok (some (t, rest)) => (.ok (some t), rest)
  | .ok none =>
  match scanTrue cs with
  | some (t, rest) => (.ok (some t), rest)
  | none =>
  match scanFalse cs with
  | some (t, rest) => (.ok (some t), rest)
  | none => (.error .parse, cs)

/-- Lexer::next (src/lexer.rs lines 51-156) on the remaining input: skip
whitespace and one optional comment, then end-of-input, newline,
punctuation, bare key (suppressed in `Value` posture), then the value-side
chain.  The returned list is the remaining input after the call (on an
error, whitespace and comment have still been consumed, as in the Rust
code where `self.pos` has advanced). -/
def lexNext (ctx : Context) (cs : List Char) : Except Err (Option Token) × List Char :=
  if (skipTrivia cs).isEmpty then (.ok none, skipTrivia cs)
  else
    match scanNewline (skipTrivia cs) with
    | some rest => (.ok (some .newline), rest)
    | none =>
      match scanPunct (skipTrivia cs) with
      | some t => (.ok (some t), (skipTrivia cs).drop 1)
      | none =>
        match (match ctx.posture with
               | some .value => none
               | _ => scanBareKey (skipTrivia cs)) with
        | some (t, rest) => (.ok (some t), rest)
        | none => lexValueScan (skipTrivia cs)

/-- The lexer as the Rust struct holds it: borrowed text plus a cursor
(src/lexer.rs `struct Lexer`). -/
structure Lexer where
  text : List Char
  pos : Nat
deriving DecidableEq, Repr

/-- Lexer::new. -/
def Lexer.new (text : List Char) : Lexer := ⟨text, 0⟩

/-- Lexer::remainder. -/
def Lexer.remainder (l : Lexer) : List Char := l.text.drop l.pos

/-- Lexer::next through the cursor: the scans run on the remainder and
`pos` advances by the number of characters consumed. -/
def Lexer.next (l : Lexer) (ctx : Context) : Except Err (Option Token) × Lexer :=
  match lexNext ctx l.remainder with
  | (r, rest) => (r, ⟨l.text, l.pos + (l.remainder.length - rest.length)⟩)

/-- Lexer::peek (src/lexer.rs lines 158-163): record `pos`, run `next`,
restore `pos`, return the token result. -/
def Lexer.peek (l : Lexer) (ctx : Context) : Except Err (Option Token) × Lexer :=
  match l.next ctx with
  | (r, l1) => (r, ⟨l1.text, l.pos⟩)

/-- Parser::require (src/parser.rs lines 309-314): consume the next token
and demand it equals the expected one. -/
def pRequire (t : Token) (cs : List Char) : Except Err (List Char) :=
  match lexNext ctxDefault cs with
  | (.ok (some actual), rest) => if actual = t then .ok rest else .error .parse
  | (.ok none, _) => .error .parse
  | (.error e, _) => .error e

/-- Parser::require_string (src/parser.rs lines 316-321). -/
def pRequireString (cs : List Char) : Except Err (List Char × List Char) :=
  match lexNext ctxDefault cs with
  | (.ok (some (.string s)), rest) => .ok (s, rest)
  | (.error e, _) => .error e
  | (_, _) => .error .parse

/-- Parser::require_newline_or_eof (src/parser.rs lines 323-328). -/
def pRequireNewlineOrEof (cs : List Char) : Except Err (List Char) :=
  match lexNext ctxDefault cs with
  | (.ok (some .newline), rest) => .ok rest
  | (.ok none, rest) => .ok rest
  | (.error e, _) => .error e
  | (_, _) => .error .parse

/-- Dotted-segment loop of Parser::key (src/parser.rs lines 148-152): while
the peeked token is a dot, consume it and require another string segment. -/
def pKeyLoop : Nat → List (List Char) → List Char → Except Err (List (List Char) × List Char)
  | 0, _, _ => .error .fuel
  | f + 1, acc, cs =>
    match (lexNext ctxDefault cs).1 with
    | .error e => .error e
    | .ok (some .dot) =>
      match pRequire .dot cs with
      | .error e => .error e
      | .ok cs1 =>
        match pRequireString cs1 with
        | .error e => .error e
        | .ok (seg, cs2) => pKeyLoop f (acc ++ [seg]) cs2
    | .ok _ => .ok (acc, cs)

/-- Parser::key (src/parser.rs lines 144-154). -/
def pKey (f : Nat) (cs : List Char) : Except Err (List (List Char) × List Char) :=
  match pRequireString cs with
  | .error e => .error e
  | .ok (seg, cs1) => pKeyLoop f [seg] cs1

/-- Parser::skip_newlines (src/parser.rs lines 330-335). -/
def pSkipNewlines : Nat → List Char → Except Err (List Char)
  | 0, _ => .error .fuel
  | f + 1, cs =>
    match (lexNext ctxDefault cs).1 with
    | .error e => .error e
    | .ok (some .newline) => pSkipNewlines f (lexNext ctxDefault cs).2
    | .ok _ => .ok cs

/-- Parser::find_or_create_subtable_mut (src/parser.rs lines 276-292),
turned into a functional update: walk the dotted prefix, creating empty
tables at vacant segments, descending into tables, and into the last
element of an array (whose absence or non-table type is a Rust panic); a
scalar on the path is a parse error.  The continuation `f` acts on the
subtable reached and the updated root is rebuilt on the way out. -/
def findOrCreateUpd : Table → List (List Char) → (Table → Except Err Table) → Except Err Table
  | t, [], f => f t
  | t, seg :: rest, f =>
    match tblGet t seg with
    | none =>
      match findOrCreateUpd [] rest f with
      | .error e => .error e
      | .ok sub => .ok (tblInsert t seg (.table sub))
    | some (.table sub) =>
      match findOrCreateUpd sub rest f with
      | .error e => .error e
      | .ok sub1 => .ok (tblInsert t seg (.table sub1))
    | some (.array a) =>
      match a.getLast? with
      | some (.table sub) =>
        match findOrCreateUpd sub rest f with
        | .error e => .error e
        | .ok sub1 => .ok (tblInsert t seg (.array (a.dropLast ++ [.table sub1])))
      | some _ => .error .panicked
      | none => .error .panicked
    | some _ => .error .parse

/-- Parser::current_table_mut (src/parser.rs lines 294-307) as a functional
update: walk `current_table_key` without creating anything (a vacant or
scalar segment is a parse error, an array descends into its last element,
panicking as the Rust code would when that is absent or not a table). -/
def curTabUpd : Table → List (List Char) → (Table → Except Err Table) → Except Err Table
  | t, [], f => f t
  | t, seg :: rest, f =>
    match tblGet t seg with
    | some (.table sub) =>
      match curTabUpd sub rest f with
      | .error e => .error e
      | .ok sub1 => .ok (tblInsert t seg (.table sub1))
    | some (.array a) =>
      match a.getLast? with
      | some (.table sub) =>
        match curTabUpd sub rest f with
        | .error e => .error e
        | .ok sub1 => .ok (tblInsert t seg (.array (a.dropLast ++ [.table sub1])))
      | some _ => .error .panicked
      | none => .error .panicked
    | _ => .error .parse

/-- Walk of Parser::absolute_key_string (src/parser.rs lines 337-358):
accumulate `.seg` for a table segment and `.seg.<index of last element>`
for an array segment (descending into its last element, `unwrap`/`as_table`
panicking as in the source); anything else is a parse error. -/
def absKeyGo : Table → List (List Char) → List Char → Except Err (List Char)
  | _, [], acc => .ok acc
  | t, seg :: rest, acc =>
    match tblGet t seg with
    | some (.table t1) => absKeyGo t1 rest (acc ++ '.' :: seg)
    | some (.array a) =>
      match a.getLast? with
      | some (.table t1) =>
        absKeyGo t1 rest (acc ++ '.' :: seg ++ '.' :: (Nat.repr (a.length - 1)).toList)
      | some _ => .error .panicked
      | none => .error .panicked
    | _ => .error .parse

/-- Parser::absolute_key_string with the base and relative key chained. -/
def absoluteKeyString (root : Table) (segs : List (List Char)) : Except Err (List Char) :=
  absKeyGo root segs []

/-- String::starts_with on character lists (`s.starts_with(pat)`). -/
def strStartsWith : List Char → List Char → Bool
  | _, [] => true
  | [], _ :: _ => false
  | a :: s, b :: p => a == b && strStartsWith s p

/-- Insertion step shared by the key/value branches (src/parser.rs lines
44-51 and 197-219): find or create the subtable named by the dotted prefix,
fail if the final segment is already present, then insert. -/
def insertKeyVal (root : Table) (key : List (List Char)) (last : List Char) (v : Value) :
    Except Err Table :=
  findOrCreateUpd root key.dropLast (fun sub =>
    if (tblGet sub last).isSome then .error .parse
    else .ok (tblInsert sub last v))

/-- Test for Value::Table used by `matches!(value, Value::Table(_))`. -/
def isTableV : Value → Bool
  | .table _ => true
  | _ => false

/-- Test for Value::Array used by `matches!(value, Value::Array(_))`. -/
def isArrayV : Value → Bool
  | .array _ => true
  | _ => false

mutual

/-- Parser::value (src/parser.rs lines 156-189): peek with `Value` posture;
scalars are consumed and wrapped, a left brace or bracket dispatches to the
inline-table or array procedure, anything else is a parse error. -/
def pValue : Nat → List Char → Except Err (Value × List Char)
  | 0, _ => .error .fuel
  | f + 1, cs =>
    match (lexNext ctxValue cs).1 with
    | .error e => .error e
    | .ok (some (.string x)) => .ok (.string x, (lexNext ctxValue cs).2)
    | .ok (some (.integer x)) => .ok (.integer x, (lexNext ctxValue cs).2)
    | .ok (some (.float x)) => .ok (.float x, (lexNext ctxValue cs).2)
    | .ok (some (.bool x)) => .ok (.bool x, (lexNext ctxValue cs).2)
    | .ok (some (.offsetDateTime x)) => .ok (.offsetDateTime x, (lexNext ctxValue cs).2)
    | .ok (some (.localDateTime x)) => .ok (.localDateTime x, (lexNext ctxValue cs).2)
    | .ok (some (.localDate x)) => .ok (.localDate x, (lexNext ctxValue cs).2)
    | .ok (some (.localTime x)) => .ok (.localTime x, (lexNext ctxValue cs).2)
    | .ok (some .leftBrace) => pInlineTable f cs
    | .ok (some .leftBracket) => pArray f cs
    | .ok _ => .error .parse

/-- Parser::key_value_pair (src/parser.rs lines 137-142). -/
def pKeyValuePair : Nat → List Char → Except Err (List (List Char) × Value × List Char)
  | 0, _ => .error .fuel
  | f + 1, cs =>
    match pKey f cs with
    | .error e => .error e
    | .ok (key, cs1) =>
      match pRequire .equal cs1 with
      | .error e => .error e
      | .ok cs2 =>
        match pValue f cs2 with
        | .error e => .error e
        | .ok (v, cs3) => .ok (key, v, cs3)

/-- Parser::inline_table (src/parser.rs lines 191-226): `{`, then either an
immediate `}` or a first key/value pair followed by the comma loop, then
`}`. -/
def pInlineTable : Nat → List Char → Except Err (Value × List Char)
  | 0, _ => .error .fuel
  | f + 1, cs =>
    match pRequire .leftBrace cs with
    | .error e => .error e
    | .ok cs1 =>
      match (lexNext ctxDefault cs1).1 with
      | .error e => .error e
      | .ok (some .rightBrace) =>
        match pRequire .rightBrace cs1 with
        | .error e => .error e
        | .ok cs2 => .ok (.table [], cs2)
      | .ok (some (.string _)) =>
        match pKeyValuePair f cs1 with
        | .error e => .error e
        | .ok (key, v, cs2) =>
          match key.getLast? with
          | none => .error .panicked
          | some last =>
            match insertKeyVal [] key last v with
            | .error e => .error e
            | .ok tbl =>
              match pInlineLoop f tbl cs2 with
              | .error e => .error e
              | .ok (tbl1, cs3) =>
                match pRequire .rightBrace cs3 with
                | .error e => .error e
                | .ok cs4 => .ok (.table tbl1, cs4)
      | .ok _ => .error .parse

/-- Comma loop of Parser::inline_table (src/parser.rs lines 208-219). -/
def pInlineLoop : Nat → Table → List Char → Except Err (Table × List Char)
  | 0, _, _ => .error .fuel
  | f + 1, tbl, cs =>
    match (lexNext ctxDefault cs).1 with
    | .error e => .error e
    | .ok (some .comma) =>
      match pRequire .comma cs with
      | .error e => .error e
      | .ok cs1 =>
        match pKeyValuePair f cs1 with
        | .error e => .error e
        | .ok (key, v, cs2) =>
          match key.getLast? with
          | none => .error .panicked
          | some last =>
            match insertKeyVal tbl key last v with
            | .error e => .error e
            | .ok tbl1 => pInlineLoop f tbl1 cs2
    | .ok _ => .ok (tbl, cs)

/-- Parser::array (src/parser.rs lines 228-256): `[`, then either an
immediate `]` or newline-separated values with commas, a trailing comma
being allowed before the closing `]`. -/
def pArray : Nat → List Char → Except Err (Value × List Char)
  | 0, _ => .error .fuel
  | f + 1, cs =>
    match pRequire .leftBracket cs with
    | .error e => .error e
    | .ok cs1 =>
      match (lexNext ctxDefault cs1).1 with
      | .error e => .error e
      | .ok (some .rightBracket) =>
        match pRequire .rightBracket cs1 with
        | .error e => .error e
        | .ok cs2 => .ok (.array [], cs2)
      | .ok _ =>
        match pSkipNewlines f cs1 with
        | .error e => .error e
        | .ok cs2 =>
          match pValue f cs2 with
          | .error e => .error e
          | .ok (v, cs3) =>
            match pSkipNewlines f cs3 with
            | .error e => .error e
            | .ok cs4 =>
              match pArrayLoop f [v] cs4 with
              | .error e => .error e
              | .ok (arr, cs5) =>
                match pRequire .rightBracket cs5 with
                | .error e => .error e
                | .ok cs6 => .ok (.array arr, cs6)

/-- Comma loop of Parser::array (src/parser.rs lines 239-250): after a
comma, a right bracket ends the loop (trailing comma), otherwise another
value is parsed. -/
def pArrayLoop : Nat → List Value → List Char → Except Err (List Value × List Char)
  | 0, _, _ => .error .fuel
  | f + 1, arr, cs =>
    match (lexNext ctxDefault cs).1 with
    | .error e => .error e
    | .ok (some .comma) =>
      match pRequire .comma cs with
      | .error e => .error e
      | .ok cs1 =>
        match pSkipNewlines f cs1 with
        | .error e => .error e
        | .ok cs2 =>
          match (lexNext ctxDefault cs2).1 with
          | .error e => .error e
          | .ok (some .rightBracket) => .ok (arr, cs2)
          | .ok _ =>
            match pValue f cs2 with
            | .error e => .error e
            | .ok (v, cs3) =>
              match pSkipNewlines f cs3 with
              | .error e => .error e
              | .ok cs4 => pArrayLoop f (arr ++ [v]) cs4
    | .ok _ => .ok (arr, cs)

end

/-- Parser::table (src/parser.rs lines 258-264). -/
def pTable (f : Nat) (cs : List Char) : Except Err (List (List Char) × List Char) :=
  match pRequire .leftBracket cs with
  | .error e => .error e
  | .ok cs1 =>
    match pKey f cs1 with
    | .error e => .error e
    | .ok (key, cs2) =>
      match pRequire .rightBracket cs2 with
      | .error e => .error e
      | .ok cs3 =>
        match pRequireNewlineOrEof cs3 with
        | .error e => .error e
        | .ok cs4 => .ok (key, cs4)

/-- Parser::array_of_tables (src/parser.rs lines 266-274). -/
def pArrayOfTables (f : Nat) (cs : List Char) : Except Err (List (List Char) × List Char) :=
  match pRequire .leftBracket cs with
  | .error e => .error e
  | .ok cs1 =>
    match pRequire .leftBracket cs1 with
    | .error e => .error e
    | .ok cs2 =>
      match pKey f cs2 with
      | .error e => .error e
      | .ok (key, cs3) =>
        match pRequire .rightBracket cs3 with
        | .error e => .error e
        | .ok cs4 =>
          match pRequire .rightBracket cs4 with
          | .error e => .error e
          | .ok cs5 =>
            match pRequireNewlineOrEof cs5 with
            | .error e => .error e
            | .ok cs6 => .ok (key, cs6)

/-- Parser state (src/parser.rs `struct Parser`): the lexer is the
remaining input, the root is always a table, and the three bookkeeping
vectors hold dotted-path strings. -/
structure PState where
  rest : List Char
  root : Table
  current_table_key : List (List Char)
  predefined_tables : List (List Char)
  inlined_tables : List (List Char)
  inlined_arrays : List (List Char)

/-- Fuel handed to the recursive sub-parsers at each top-level use; it
exceeds the recursion depth any input of this length can force (at most
two fuel units are spent per consumed character on any path). -/
def innerFuel (cs : List Char) : Nat := 4 * cs.length + 8

/-- Main loop of Parser::toml (src/parser.rs lines 35-135), one fuel unit
per iteration (each iteration consumes at least one character).  Branches:
newline; key/value line with redefinition and inline-sealing bookkeeping;
`[`-lookahead distinguishing array-of-tables headers from plain table
headers; anything else a parse error. -/
def tomlLoop : Nat → PState → Except Err Value
  | 0, _ => .error .fuel
  | fuel + 1, st =>
    match (lexNext ctxDefault st.rest).1 with
    | .error e => .error e
    | .ok none => .ok (.table st.root)
    | .ok (some .newline) =>
      tomlLoop fuel { st with rest := (lexNext ctxDefault st.rest).2 }
    | .ok (some (.string _)) =>
      match pKeyValuePair (innerFuel st.rest) st.rest with
      | .error e => .error e
      | .ok (key, v, cs1) =>
        match pRequireNewlineOrEof cs1 with
        | .error e => .error e
        | .ok cs2 =>
          match key.getLast? with
          | none => .error .panicked
          | some last =>
            match curTabUpd st.root st.current_table_key
                (fun table => insertKeyVal table key last v) with
            | .error e => .error e
            | .ok root1 =>
              match absoluteKeyString root1 (st.current_table_key ++ key.dropLast) with
              | .error e => .error e
              | .ok absKey =>
                if st.inlined_tables.any
                    (fun t => strStartsWith (absKey ++ '.' :: last) t) then
                  .error .parse
                else
                  tomlLoop fuel
                    { rest := cs2
                      root := root1
                      current_table_key := st.current_table_key
                      predefined_tables := st.predefined_tables ++ [absKey]
                      inlined_tables :=
                        if isTableV v then st.inlined_tables ++ [absKey ++ '.' :: last]
                        else st.inlined_tables
                      inlined_arrays :=
                        if isArrayV v then st.inlined_arrays ++ [absKey ++ '.' :: last]
                        else st.inlined_arrays }
    | .ok (some .leftBracket) =>
      match (lexNext ctxDefault st.rest).1 with
      | .error e => .error e
      | .ok _ =>
        match (lexNext ctxDefault (lexNext ctxDefault st.rest).2).1 with
        | .error e => .error e
        | .ok (some .leftBracket) =>
          match pArrayOfTables (innerFuel st.rest) st.rest with
          | .error e => .error e
          | .ok (key, cs1) =>
            match key.getLast? with
            | none => .error .panicked
            | some last =>
              match findOrCreateUpd st.root key.dropLast (fun t =>
                  match tblGet t last with
                  | some (.array a) => .ok (tblInsert t last (.array (a ++ [.table []])))
                  | none => .ok (tblInsert t last (.array [.table []]))
                  | some _ => .error .parse) with
              | .error e => .error e
              | .ok root1 =>
                match absoluteKeyString root1 key.dropLast with
                | .error e => .error e
                | .ok absKey =>
                  if st.inlined_arrays.contains (absKey ++ '.' :: last) then
                    .error .parse
                  else
                    tomlLoop fuel
                      { st with rest := cs1, root := root1, current_table_key := key }
        | .ok _ =>
          match pTable (innerFuel st.rest) st.rest with
          | .error e => .error e
          | .ok (key, cs1) =>
            match findOrCreateUpd st.root key (fun t => .ok t) with
            | .error e => .error e
            | .ok root1 =>
              match absoluteKeyString root1 key with
              | .error e => .error e
              | .ok absKey =>
                if st.predefined_tables.contains absKey then .error .parse
                else
                  tomlLoop fuel
                    { st with rest := cs1, root := root1, current_table_key := key,
                              predefined_tables := st.predefined_tables ++ [absKey] }
    | .ok (some _) => .error .parse

/-- Parser::from_str / crate::from_str (src/parser.rs lines 30-33,
src/lib.rs lines 10-12): fresh state, empty root table, and enough fuel for
every iteration of the top-level loop (each consumes at least one
character). -/
def fromStr (cs : List Char) : Except Err Value :=
  tomlLoop (cs.length + 1) ⟨cs, [], [], [], [], []⟩

/-- Shape of the tail of a line-continuation match: optional spaces/tabs
followed by a newline (this is what must follow the backslash). -/
def isLStart (cs : List Char) : Bool :=
  match cs.dropWhile isWsChar with
  | '\r' :: '\n' :: _ => true
  | '\n' :: _ => true
  | _ => false

/-- Test for a leading `\n`. -/
def startsNL : List Char → Bool
  | '\n' :: _ => true
  | _ => false

mutual

/-- Documents consisting only of spaces, tabs, newlines (`\n` or `\r\n`)
and comments, the input family of C9. -/
def isWsDoc : List Char → Bool
  | [] => true
  | ' ' :: r => isWsDoc r
  | '\t' :: r => isWsDoc r
  | '\r' :: '\n' :: r => isWsDoc r
  | '\n' :: r => isWsDoc r
  | '#' :: r => wsComment r
  | _ => false

/-- Inside a comment body: any characters up to the line ending or the end
of input, the rest again a whitespace document. -/
def wsComment : List Char → Bool
  | [] => true
  | '\n' :: r => isWsDoc r
  | _ :: r => wsComment r

end


def c4Doc (p : List Char) : List Char :=
  '[' :: (p ++ ']' :: '\n' :: '[' :: (p ++ [']']))

def aotDoc (p : List Char) : Nat → List Char
  | 0 => []
  | n + 1 => '[' :: '[' :: (p ++ ']' :: ']' :: '\n' :: aotDoc p n)

def c1Doc (p : List Char) : List Char :=
  'a' :: ' ' :: '=' :: ' ' :: '\x7b' :: 'b' :: ' ' :: '=' :: ' ' :: '1' :: ' ' :: '\x7d' ::
  '\n' :: 'a' :: '.' :: (p ++ ' ' :: '=' :: ' ' :: '1' :: [])

/-- C2: in the accepted basic string `"\u0041"` the lexer leaves the
six characters of the `\uXXXX` escape verbatim in the String token instead
of decoding them to the single scalar `A`: the escape-sequence set is
accepted by the content regex, but the replacement chain of
`scan_basic_string` has no case for `\u`. -/
theorem c2_unicode_escape_not_expanded :
    scanBasicString "\"\\u0041\"".toList =
      some (.string ['\\', 'u', '0', '0', '4', '1'], []) ∧
    ('\\' :: 'u' :: '0' :: '0' :: '4' :: '1' :: ([] : List Char)) ≠ ['A'] :=
  ⟨rfl, by decide⟩

set_option smartUnfolding false in
set_option maxHeartbeats 2000000 in
/-- C10: an inline table with a trailing comma before `}` is a parse error
whatever follows the document, while a trailing comma before the `]` of an
inline array is accepted. -/
theorem c10_trailing_comma :
    (∀ rest : List Char, fromStr ("x = \x7b a = 1, \x7d".toList ++ rest) = .error .parse) ∧
    fromStr "x = [1, ]".toList = .ok (.table [("x".toList, .array [.integer 1])]) :=
  ⟨fun _ => rfl, rfl⟩

set_option smartUnfolding false in
set_option maxHeartbeats 2000000 in
/-- C1 counterexample: the document `a = { b = 1 }` followed by the
top-level header `[a.c]` — a header targeting a descendant of the inline
table at `a` — is accepted by from_str, contradicting the claim that every
such document is rejected (only dotted-key lines are checked against
`inlined_tables`; the table-header branch consults `predefined_tables`
alone). -/
theorem c1_header_after_inline_accepted :
    fromStr "a = \x7b b = 1 \x7d\n[a.c]".toList =
      .ok (.table [("a".toList,
        .table [("b".toList, .integer 1), ("c".toList, .table [])])]) := rfl

set_option smartUnfolding false in
set_option maxHeartbeats 2000000 in
/-- C4 counterexample: the document `[[a]]`, `[a.b]`, `[[a]]`, `[a.b]`
contains the table header `[a.b]` twice at top level and is accepted by
from_str: the second occurrence resolves to the absolute key `.a.1.b`
(inside the second array element) which differs from the recorded
`.a.0.b`.  The repository's own test `inline_tables_2` asserts this
acceptance. -/
theorem c4_same_header_twice_accepted :
    fromStr "[[a]]\n[a.b]\n[[a]]\n[a.b]".toList =
      .ok (.table [("a".toList,
        .array [.table [("b".toList, .table [])],
                .table [("b".toList, .table [])]])]) := rfl

/-- C3 counterexample: at the same input position the keyword `true` is
scanned as the bare-key String token under Any posture (the bare-key rule
precedes every keyword rule and is only suppressed under Value posture)
but as the Bool token under Value posture, contradicting the claim that
the keywords produce the same token in both postures. -/
theorem c3_keyword_tokens_differ_by_posture :
    (lexNext ctxAny "true".toList).1 = .ok (some (.string "true".toList)) ∧
    (lexNext ctxValue "true".toList).1 = .ok (some (.bool true)) ∧
    (lexNext ctxAny "true".toList).1 ≠ (lexNext ctxValue "true".toList).1 := by
  refine ⟨rfl, rfl, ?_⟩
  have h1 : (lexNext ctxAny "true".toList).1 = .ok (some (.string "true".toList)) := rfl
  have h2 : (lexNext ctxValue "true".toList).1 = .ok (some (.bool true)) := rfl
  rw [h1, h2]
  simp

/-- C8: peek is pure: for every lexer state (text and cursor) and every
context, `peek` returns the scanner to exactly the state it had on entry —
whether it produced a token, end-of-input, or an error — its token result
is that of `next`, and therefore a peek followed by next behaves like next
alone. -/
theorem c8_peek_leaves_state (l : Lexer) (ctx : Context) :
    (l.peek ctx).2 = l ∧ (l.peek ctx).1 = (l.next ctx).1 ∧
    (l.peek ctx).2.next ctx = l.next ctx := by
  obtain ⟨text, pos⟩ := l
  refine ⟨?_, ?_, ?_⟩ <;> simp [Lexer.peek, Lexer.next]

/-- Concatenation soundness of the greedy underscore-digit matcher: the
matched run and the remainder reassemble to the input. -/
theorem uDigits_append (isD : Char → Bool) : ∀ r : List Char,
    (uDigits isD r).1 ++ (uDigits isD r).2 = r
  | [] => by simp [uDigits]
  | c :: [] => by
    rw [uDigits]
    by_cases hc : c = '_'
    · simp [hc]
    · by_cases h1 : isD c <;> simp [hc, h1, uDigits]
  | c :: c2 :: r2 => by
    rw [uDigits]
    by_cases hc : c = '_'
    · rw [if_pos hc]
      by_cases h2 : isD c2
      · rw [if_pos h2]
        have ih := uDigits_append isD r2
        rcases huv : uDigits isD r2 with ⟨a, b⟩
        rw [huv] at ih
        simp [hc, ih]
      · rw [if_neg h2]
        simp
    · rw [if_neg hc]
      by_cases h1 : isD c
      · rw [if_pos h1]
        have ih := uDigits_append isD (c2 :: r2)
        rcases huv : uDigits isD (c2 :: r2) with ⟨a, b⟩
        rw [huv] at ih
        simp [ih]
      · rw [if_neg h1]
        simp

/-- Sign matcher soundness: the sign is empty or a single `+`/`-`, and sign
and remainder reassemble to the input. -/
theorem matchSign_split (cs : List Char) :
    ((matchSign cs).1 = [] ∨ (matchSign cs).1 = ['+'] ∨ (matchSign cs).1 = ['-']) ∧
    (matchSign cs).1 ++ (matchSign cs).2 = cs := by
  rw [matchSign.eq_def]
  split <;> simp

/-- Whole-part matcher soundness: matched digits and remainder reassemble
to the input. -/
theorem matchIntPart_append (x ip rest : List Char) (h : matchIntPart x = some (ip, rest)) :
    ip ++ rest = x := by
  rw [matchIntPart.eq_def] at h
  split at h
  · injection h with h1
    injection h1 with h2 h3
    subst h2; subst h3
    simp
  · rename_i c r hne
    split at h
    · injection h with h1
      injection h1 with h2 h3
      subst h2; subst h3
      have := uDigits_append Char.isDigit r
      simp [this]
    · exact absurd h (by simp)
  · exact absurd h (by simp)

/-- C6: for every accepted integer literal in each of the four radices, the
produced i64 value is the interpretation, in that radix, of the literal's
digits after the radix prefix (if any) with all underscores removed;
decimal literals additionally carry their optional sign. -/
theorem c6_integer_radix_roundtrip :
    (∀ cs v rest, scanIntegerHex cs = .ok (some (.integer v, rest)) →
      ∃ raw, cs = raw ++ rest ∧ raw.take 2 = "0x".toList ∧
        v = Int.ofNat (natOfDigits 16 (stripU (raw.drop 2)))) ∧
    (∀ cs v rest, scanIntegerOctal cs = .ok (some (.integer v, rest)) →
      ∃ raw, cs = raw ++ rest ∧ raw.take 2 = "0o".toList ∧
        v = Int.ofNat (natOfDigits 8 (stripU (raw.drop 2)))) ∧
    (∀ cs v rest, scanIntegerBinary cs = .ok (some (.integer v, rest)) →
      ∃ raw, cs = raw ++ rest ∧ raw.take 2 = "0b".toList ∧
        v = Int.ofNat (natOfDigits 2 (stripU (raw.drop 2)))) ∧
    (∀ cs v rest, scanInteger cs = .ok (some (.integer v, rest)) →
      ∃ sign ds, cs = (sign ++ ds) ++ rest ∧
        (sign = [] ∨ sign = ['+'] ∨ sign = ['-']) ∧
        v = (if sign = ['-'] then -(Int.ofNat (natOfDigits 10 (stripU ds)))
             else Int.ofNat (natOfDigits 10 (stripU ds)))) := by
  refine ⟨?_, ?_, ?_, ?_⟩
  · intro cs v rest h
    unfold scanIntegerHex at h
    split at h
    case _ c r =>
      split at h
      case isTrue hhex =>
        split at h
        case _ w hp =>
          refine ⟨'0' :: 'x' :: c :: (uDigits isHexC r).1, ?_, rfl, ?_⟩
          · have := uDigits_append isHexC r
            injection h with h1
            injection h1 with h2
            injection h2 with h3 h4
            simp [← h4, this]
          · injection h with h1
            injection h1 with h2
            injection h2 with h3 h4
            injection h3 with h5
            simp only [parseRadixI64] at hp
            split at hp
            · injection hp with hp1
              simp [← h5, ← hp1]
            · exact absurd hp (by simp)
        case _ hp => exact absurd h (by simp)
      case isFalse => exact absurd h (by simp)
    case _ => exact absurd h (by simp)
  · intro cs v rest h
    unfold scanIntegerOctal at h
    split at h
    case _ c r =>
      split at h
      case isTrue hoct =>
        split at h
        case _ w hp =>
          refine ⟨'0' :: 'o' :: c :: (uDigits isOctC r).1, ?_, rfl, ?_⟩
          · have := uDigits_append isOctC r
            injection h with h1
            injection h1 with h2
            injection h2 with h3 h4
            simp [← h4, this]
          · injection h with h1
            injection h1 with h2
            injection h2 with h3 h4
            injection h3 with h5
            simp only [parseRadixI64] at hp
            split at hp
            · injection hp with hp1
              simp [← h5, ← hp1]
            · exact absurd hp (by simp)
        case _ hp => exact absurd h (by simp)
      case isFalse => exact absurd h (by simp)
    case _ => exact absurd h (by simp)
  · intro cs v rest h
    unfold scanIntegerBinary at h
    split at h
    case _ c r =>
      split at h
      case isTrue hbin =>
        split at h
        case _ w hp =>
          refine ⟨'0' :: 'b' :: c :: (uDigits isBinC r).1, ?_, rfl, ?_⟩
          · have := uDigits_append isBinC r
            injection h with h1
            injection h1 with h2
            injection h2 with h3 h4
            simp [← h4, this]
          · injection h with h1
            injection h1 with h2
            injection h2 with h3 h4
            injection h3 with h5
            simp only [parseRadixI64] at hp
            split at hp
            · injection hp with hp1
              simp [← h5, ← hp1]
            · exact absurd hp (by simp)
        case _ hp => exact absurd h (by simp)
      case isFalse => exact absurd h (by simp)
    case _ => exact absurd h (by simp)
  · intro cs v rest h
    simp only [scanInteger] at h
    split at h
    · exact absurd h (by simp)
    case _ ip rest1 hip =>
      split at h
      case _ w hp =>
        injection h with h1
        injection h1 with h2
        injection h2 with h3 h4
        injection h3 with h5
        refine ⟨(matchSign cs).1, ip, ?_, (matchSign_split cs).1, ?_⟩
        · have h6 := matchIntPart_append _ _ _ hip
          have h7 := (matchSign_split cs).2
          rw [← h4]
          rw [List.append_assoc, h6, h7]
        · simp only [parseDecI64] at hp
          split at hp
          case _ hneg =>
            split at hp
            · injection hp with hp1
              simp [hneg, ← h5, ← hp1]
            · exact absurd hp (by simp)
          case _ hneg =>
            split at hp
            · injection hp with hp1
              simp [hneg, ← h5, ← hp1]
            · exact absurd hp (by simp)
      case _ => exact absurd h (by simp)

/-- C6 witness: the theorem applied at accepted literals of all four
radices (`0x1_A`, `0o17`, `0b1_0`, `-1_2`). -/
theorem c6_integer_radix_roundtrip_witness :
    (∃ raw, "0x1_A".toList = raw ++ ([] : List Char) ∧ raw.take 2 = "0x".toList ∧
      (26 : Int) = Int.ofNat (natOfDigits 16 (stripU (raw.drop 2)))) ∧
    (∃ raw, "0o17".toList = raw ++ ([] : List Char) ∧ raw.take 2 = "0o".toList ∧
      (15 : Int) = Int.ofNat (natOfDigits 8 (stripU (raw.drop 2)))) ∧
    (∃ raw, "0b1_0".toList = raw ++ ([] : List Char) ∧ raw.take 2 = "0b".toList ∧
      (2 : Int) = Int.ofNat (natOfDigits 2 (stripU (raw.drop 2)))) ∧
    (∃ sign ds, "-1_2".toList = (sign ++ ds) ++ ([] : List Char) ∧
      (sign = [] ∨ sign = ['+'] ∨ sign = ['-']) ∧
      (-12 : Int) = (if sign = ['-'] then -(Int.ofNat (natOfDigits 10 (stripU ds)))
           else Int.ofNat (natOfDigits 10 (stripU ds)))) :=
  ⟨c6_integer_radix_roundtrip.1 "0x1_A".toList 26 [] rfl,
   c6_integer_radix_roundtrip.2.1 "0o17".toList 15 [] rfl,
   c6_integer_radix_roundtrip.2.2.1 "0b1_0".toList 2 [] rfl,
   c6_integer_radix_roundtrip.2.2.2 "-1_2".toList (-12) [] rfl⟩

theorem drop_len_takeWhile (f : Char → Bool) : ∀ l : List Char,
    l.drop (l.takeWhile f).length = l.dropWhile f
  | [] => by simp
  | c :: t => by
    by_cases h : f c
    · simp [List.takeWhile_cons, List.dropWhile_cons, h, drop_len_takeWhile f t]
    · simp [List.takeWhile_cons, List.dropWhile_cons, h]

theorem dropWhile_head_false (f : Char → Bool) : ∀ (l : List Char) (c : Char) (t : List Char),
    l.dropWhile f = c :: t → f c = false
  | [], c, t => by simp
  | a :: l, c, t => by
    by_cases h : f a
    · rw [List.dropWhile_cons, if_pos h]
      exact dropWhile_head_false f l c t
    · rw [List.dropWhile_cons, if_neg h]
      intro he
      injection he with h1 h2
      subst h1
      exact Bool.eq_false_iff.2 h

theorem lcMatch_some_shape (cs : List Char) (n : Nat) (h : lcMatch cs = some n) :
    ∃ r, cs = '\\' :: r ∧ isLStart r = true := by
  rw [lcMatch.eq_def] at h
  split at h
  · rename_i r
    refine ⟨r, rfl, ?_⟩
    unfold isLStart
    split at h
    · rfl
    · rfl
    · exact absurd h (by simp)
  · exact absurd h (by simp)

theorem lcMatch_of_isLStart (r : List Char) (h : isLStart r = true) :
    ∃ n, lcMatch ('\\' :: r) = some n := by
  unfold isLStart at h
  split at h
  · rename_i r2 heq
    refine ⟨1 + (r.takeWhile isWsChar).length + 2 + (r2.takeWhile isPosixSpace).length, ?_⟩
    simp only [lcMatch]
    rw [heq]
    rfl
  · rename_i r2 heq
    refine ⟨1 + (r.takeWhile isWsChar).length + 1 + (r2.takeWhile isPosixSpace).length, ?_⟩
    simp only [lcMatch]
    rw [heq]
    rfl
  · exact absurd h (by simp)

theorem isLStart_head (X : List Char) (h : isLStart X = true) :
    ∃ c t, X = c :: t ∧ isPosixSpace c = true := by
  unfold isLStart at h
  split at h
  all_goals rename_i heq
  · rcases X with _ | ⟨c, t⟩
    · simp at heq
    · refine ⟨c, t, rfl, ?_⟩
      by_cases hw : isWsChar c
      · revert hw
        unfold isWsChar isPosixSpace
        intro hw
        rcases Bool.or_eq_true_iff.1 hw with h1 | h1 <;> simp [h1]
      · rw [List.dropWhile_cons, if_neg hw] at heq
        injection heq with h1 h2
        subst h1
        rfl
  · rcases X with _ | ⟨c, t⟩
    · simp at heq
    · refine ⟨c, t, rfl, ?_⟩
      by_cases hw : isWsChar c
      · revert hw
        unfold isWsChar isPosixSpace
        intro hw
        rcases Bool.or_eq_true_iff.1 hw with h1 | h1 <;> simp [h1]
      · rw [List.dropWhile_cons, if_neg hw] at heq
        injection heq with h1 h2
        subst h1
        rfl
  · exact absurd h (by simp)

theorem lcMatch_drop (cs : List Char) (n : Nat) (h : lcMatch cs = some n) :
    ∀ c t, cs.drop n = c :: t → isPosixSpace c = false := by
  rw [lcMatch.eq_def] at h
  split at h
  · rename_i r
    split at h
    · rename_i r2 heq
      injection h with h1
      intro c t hd
      rw [← h1] at hd
      have e1 : ('\\' :: r).drop (1 + (r.takeWhile isWsChar).length + 2 +
          (r2.takeWhile isPosixSpace).length) = r2.dropWhile isPosixSpace := by
        have : 1 + (r.takeWhile isWsChar).length + 2 + (r2.takeWhile isPosixSpace).length =
            ((r.takeWhile isWsChar).length + 2 + (r2.takeWhile isPosixSpace).length) + 1 := by
          omega
        rw [this, List.drop_succ_cons]
        have h2 : (r.takeWhile isWsChar).length + 2 + (r2.takeWhile isPosixSpace).length =
            (r.takeWhile isWsChar).length + (2 + (r2.takeWhile isPosixSpace).length) := by omega
        rw [h2, ← List.drop_drop]
        rw [drop_len_takeWhile, heq]
        have h3 : (2 : Nat) + (r2.takeWhile isPosixSpace).length =
            (r2.takeWhile isPosixSpace).length + 1 + 1 := by omega
        rw [h3]
        rw [List.drop_succ_cons, List.drop_succ_cons]
        exact drop_len_takeWhile isPosixSpace r2
      rw [e1] at hd
      exact dropWhile_head_false isPosixSpace r2 c t hd
    · rename_i r2 heq
      injection h with h1
      intro c t hd
      rw [← h1] at hd
      have e1 : ('\\' :: r).drop (1 + (r.takeWhile isWsChar).length + 1 +
          (r2.takeWhile isPosixSpace).length) = r2.dropWhile isPosixSpace := by
        have : 1 + (r.takeWhile isWsChar).length + 1 + (r2.takeWhile isPosixSpace).length =
            ((r.takeWhile isWsChar).length + 1 + (r2.takeWhile isPosixSpace).length) + 1 := by
          omega
        rw [this, List.drop_succ_cons]
        have h2 : (r.takeWhile isWsChar).length + 1 + (r2.takeWhile isPosixSpace).length =
            (r.takeWhile isWsChar).length + (1 + (r2.takeWhile isPosixSpace).length) := by omega
        rw [h2, ← List.drop_drop]
        rw [drop_len_takeWhile, heq]
        have h3 : (1 : Nat) + (r2.takeWhile isPosixSpace).length =
            (r2.takeWhile isPosixSpace).length + 1 := by omega
        rw [h3]
        rw [List.drop_succ_cons]
        exact drop_len_takeWhile isPosixSpace r2
      rw [e1] at hd
      exact dropWhile_head_false isPosixSpace r2 c t hd
    · exact absurd h (by simp)
  · exact absurd h (by simp)

theorem startsNL_elim (X : List Char) (h : startsNL X = true) : ∃ t, X = '\n' :: t := by
  unfold startsNL at h
  split at h
  · rename_i t; exact ⟨t, rfl⟩
  · exact absurd h (by simp)

theorem isLStart_cons_ws (c : Char) (X : List Char) (hw : isWsChar c = true) :
    isLStart (c :: X) = isLStart X := by
  unfold isLStart
  rw [List.dropWhile_cons, if_pos hw]

theorem isLStart_cons_nl (X : List Char) : isLStart ('\n' :: X) = true := by
  unfold isLStart
  rw [List.dropWhile_cons, if_neg (by decide)]
  rfl

theorem isLStart_cr_elim (Y : List Char) (h : isLStart ('\r' :: Y) = true) :
    ∃ t, Y = '\n' :: t := by
  unfold isLStart at h
  rw [List.dropWhile_cons, if_neg (by decide)] at h
  split at h
  · rename_i r2 heq
    injection heq with h1 h2
    exact ⟨r2, h2⟩
  · rename_i r2 heq
    injection heq with h1
    exact absurd h1 (by decide)
  · exact absurd h (by simp)

theorem isLStart_cr_intro (t : List Char) : isLStart ('\r' :: '\n' :: t) = true := by
  unfold isLStart
  rw [List.dropWhile_cons, if_neg (by decide)]
  rfl

theorem isLStart_cons_other (c : Char) (X : List Char) (hw : isWsChar c = false)
    (h1 : c ≠ '\n') (h2 : c ≠ '\r') : isLStart (c :: X) = false := by
  unfold isLStart
  rw [List.dropWhile_cons, if_neg (by simp [hw])]
  split
  · rename_i heq
    injection heq with e1
    exact absurd e1 h2
  · rename_i heq
    injection heq with e1
    exact absurd e1 h1
  · rfl

theorem startsNL_cons_ne (c : Char) (X : List Char) (h : c ≠ '\n') :
    startsNL (c :: X) = false := by
  unfold startsNL
  split
  · rename_i heq
    injection heq with e1
    exact absurd e1 h
  · rfl

theorem lcGo_startsNL : ∀ (fuel : Nat) (s : List Char),
    startsNL (lcGo fuel s) = true → startsNL s = true
  | 0, s => by intro h; rw [lcGo] at h; exact absurd h (by simp [startsNL])
  | fuel + 1, [] => by intro h; rw [lcGo] at h; exact absurd h (by simp [startsNL])
  | fuel + 1, c :: r => by
    intro h
    rw [lcGo] at h
    rcases hm : lcMatch (c :: r) with _ | n
    · rw [hm] at h
      by_cases hc : c = '\n'
      · subst hc; rfl
      · rw [startsNL_cons_ne c _ hc] at h
        exact absurd h (by simp)
    · rw [hm] at h
      have h2 := lcGo_startsNL fuel _ h
      rcases startsNL_elim _ h2 with ⟨t, ht⟩
      have := lcMatch_drop _ _ hm '\n' t ht
      exact absurd this (by decide)

theorem lcGo_isLStart : ∀ (fuel : Nat) (s : List Char),
    isLStart (lcGo fuel s) = true → isLStart s = true
  | 0, s => by intro h; rw [lcGo] at h; exact absurd h (by simp [isLStart])
  | fuel + 1, [] => by intro h; rw [lcGo] at h; exact absurd h (by simp [isLStart])
  | fuel + 1, c :: r => by
    intro h
    rw [lcGo] at h
    rcases hm : lcMatch (c :: r) with _ | n
    · rw [hm] at h
      by_cases hw : isWsChar c
      · rw [isLStart_cons_ws c _ hw] at h
        rw [isLStart_cons_ws c _ hw]
        exact lcGo_isLStart fuel r h
      · by_cases hn : c = '\n'
        · subst hn; exact isLStart_cons_nl r
        · by_cases hr : c = '\r'
          · subst hr
            rcases isLStart_cr_elim _ h with ⟨t, ht⟩
            have hs : startsNL (lcGo fuel r) = true := by rw [ht]; rfl
            have := lcGo_startsNL fuel r hs
            rcases startsNL_elim _ this with ⟨t2, ht2⟩
            rw [ht2]
            exact isLStart_cr_intro t2
          · rw [isLStart_cons_other c _ (by simp [hw]) hn hr] at h
            exact absurd h (by simp)
    · rw [hm] at h
      have h2 := lcGo_isLStart fuel _ h
      rcases isLStart_head _ h2 with ⟨c2, t, he, hp⟩
      have := lcMatch_drop _ _ hm c2 t he
      rw [this] at hp
      exact absurd hp (by simp)

theorem lcGo_no_match : ∀ (fuel : Nat) (s a b : List Char),
    lcGo fuel s = a ++ b → lcMatch b = none
  | 0, s, a, b => by
    intro h
    rw [lcGo] at h
    rcases List.append_eq_nil.1 h.symm with ⟨_, hb⟩
    subst hb
    rfl
  | fuel + 1, [], a, b => by
    intro h
    rw [lcGo] at h
    rcases List.append_eq_nil.1 h.symm with ⟨_, hb⟩
    subst hb
    rfl
  | fuel + 1, c :: r, a, b => by
    intro h
    rw [lcGo] at h
    rcases hm : lcMatch (c :: r) with _ | n
    · rw [hm] at h
      rcases a with _ | ⟨a1, a2⟩
      · rw [List.nil_append] at h
        rcases hb : lcMatch b with _ | n2
        · rfl
        · rcases lcMatch_some_shape _ _ hb with ⟨r2, hbs, hls⟩
          rw [hbs] at h
          injection h.symm with e1 e2
          subst e1
          rw [e2] at hls
          have := lcGo_isLStart fuel r hls
          rcases lcMatch_of_isLStart r this with ⟨n3, hn3⟩
          rw [hn3] at hm
          exact absurd hm (by simp)
      · rw [List.cons_append] at h
        injection h with e1 e2
        exact lcGo_no_match fuel r a2 b e2
    · rw [hm] at h
      exact lcGo_no_match fuel _ a b h

/-- C7: every accepted multiline basic string token is the escape expansion
of its raw content after line-continuation removal, and the removal is
complete: no occurrence of backslash, optional spaces/tabs, and a newline
with its following whitespace remains anywhere in the removed content. -/
theorem c7_line_continuation_removed (cs : List Char) (t : Token) (rest : List Char)
    (h : scanMultilineBasicString cs = some (t, rest)) :
    ∃ content, t = .string (escapeChain (lcRemoveAll content)) ∧
      ∀ a b, lcRemoveAll content = a ++ b → lcMatch b = none := by
  rw [scanMultilineBasicString.eq_def] at h
  split at h
  · rename_i cs1
    split at h
    · exact absurd h (by simp)
    · rename_i k hk
      dsimp only at h
      split at h
      · exact absurd h (by simp)
      · injection h with h1
        injection h1 with h2 h3
        refine ⟨(match cs1.take k with
                 | '\n' :: c => c
                 | c => c), h2.symm, ?_⟩
        intro a b hab
        unfold lcRemoveAll at hab
        exact lcGo_no_match _ _ a b hab
  · exact absurd h (by simp)

/-- C7 witness: the theorem applied to the accepted multiline basic string
`"""a \<newline>  b"""`, whose token is `a b`. -/
theorem c7_line_continuation_removed_witness :
    ∃ content, Token.string "a b".toList = .string (escapeChain (lcRemoveAll content)) ∧
      ∀ a b, lcRemoveAll content = a ++ b → lcMatch b = none :=
  c7_line_continuation_removed "\"\"\"a \\\n  b\"\"\"".toList (.string "a b".toList) [] rfl

/-- C3 amended: at every input position the scanner behaves identically
under Any and Value posture, except that when a bare-key run starts the
position (after trivia), Any posture returns it as a String token —
whatever Value posture would have produced, keywords included. -/
theorem c3_posture_isolation (cs : List Char) :
    lexNext ctxAny cs = lexNext ctxValue cs ∨
    ∃ run rest, scanBareKey (skipTrivia cs) = some (.string run, rest) ∧
      lexNext ctxAny cs = (.ok (some (.string run)), rest) := by
  unfold lexNext
  by_cases he : (skipTrivia cs).isEmpty
  · left; simp [he]
  · rcases hn : scanNewline (skipTrivia cs) with _ | nrest
    · rcases hp : scanPunct (skipTrivia cs) with _ | t
      · rcases hb : scanBareKey (skipTrivia cs) with _ | ⟨tk, rest⟩
        · left; simp [he, hn, hp, hb, ctxAny, ctxValue]
        · have hshape : ∃ run, tk = Token.string run := by
            unfold scanBareKey at hb
            split at hb
            · exact absurd hb (by simp)
            · injection hb with h1
              injection h1 with h2 h3
              exact ⟨_, h2.symm⟩
          rcases hshape with ⟨run, htk⟩
          subst htk
          right
          exact ⟨run, rest, rfl, by simp [he, hn, hp, hb, ctxAny]⟩
      · left; simp [he, hn, hp, ctxAny, ctxValue]
    · left; simp [he, hn]

theorem length_takeWhile_eq (p : Char → Bool) (l : List Char)
    (h : (l.takeWhile p).length = l.length) : l.dropWhile p = [] := by
  have h1 := List.takeWhile_append_dropWhile p l
  have h2 := congrArg List.length h1
  rw [List.length_append, h] at h2
  have : (l.dropWhile p).length = 0 := by omega
  exact List.eq_nil_of_length_eq_zero this

theorem drop_pred_getLast (c : Char) : ∀ (l : List Char), l.getLast? = some c →
    l.drop (l.length - 1) = [c]
  | [], h => by simp at h
  | [a], h => by
    simp [List.getLast?] at h
    simp [h]
  | a :: b :: t, h => by
    rw [List.getLast?_cons_cons] at h
    have ih := drop_pred_getLast c (b :: t) h
    have hl : (a :: b :: t).length - 1 = (b :: t).length - 1 + 1 := by
      simp
    rw [hl, List.drop_succ_cons]
    exact ih

theorem wsComment_dropWhile : ∀ (r : List Char), wsComment r = true →
    r.dropWhile (fun c => c ≠ '\n') = [] ∨
    ∃ r2, r.dropWhile (fun c => c ≠ '\n') = '\n' :: r2 ∧ isWsDoc r2 = true
  | [], _ => by left; rfl
  | c :: r, h => by
    by_cases hc : c = '\n'
    · subst hc
      right
      refine ⟨r, ?_, ?_⟩
      · rw [List.dropWhile_cons, if_neg (by simp)]
      · rw [wsComment] at h
        exact h
    · have h2 : wsComment r = true := by
        rw [wsComment.eq_def] at h
        split at h
        · rename_i heq
          exact absurd heq (by simp)
        · rename_i heq
          injection heq with e1
          exact absurd e1 hc
        · rename_i c2 r2 heq
          injection heq with e1 e2
          subst e2
          exact h
      rw [List.dropWhile_cons, if_pos (by simp [hc])]
      exact wsComment_dropWhile r h2

theorem skipTrivia_ws_cons (c : Char) (r : List Char) (h : isWsChar c = true) :
    skipTrivia (c :: r) = skipTrivia r := by
  unfold skipTrivia
  rw [List.dropWhile_cons, if_pos h]

theorem lexNext_ws_cons (ctx : Context) (c : Char) (r : List Char) (h : isWsChar c = true) :
    lexNext ctx (c :: r) = lexNext ctx r := by
  unfold lexNext
  rw [skipTrivia_ws_cons c r h]

theorem isWsDoc_cons_false (c : Char) (r : List Char) (h1 : c ≠ ' ') (h2 : c ≠ '\t')
    (h3 : c ≠ '\n') (h4 : c ≠ '#')
    (h5 : ∀ r2, c :: r ≠ '\r' :: '\n' :: r2) : isWsDoc (c :: r) = false := by
  rw [isWsDoc.eq_def]
  split
  · rename_i heq; exact absurd heq (by simp)
  · rename_i heq
    injection heq with e1
    exact absurd e1 h1
  · rename_i heq
    injection heq with e1
    exact absurd e1 h2
  · rename_i r2 heq
    exact absurd heq (h5 r2)
  · rename_i heq
    injection heq with e1
    exact absurd e1 h3
  · rename_i heq
    injection heq with e1
    exact absurd e1 h4
  · rfl

theorem wsdoc_step : ∀ (n : Nat) (cs : List Char), cs.length ≤ n → isWsDoc cs = true →
    (lexNext ctxDefault cs).1 = .ok none ∨
    ((lexNext ctxDefault cs).1 = .ok (some .newline) ∧
     isWsDoc (lexNext ctxDefault cs).2 = true ∧
     (lexNext ctxDefault cs).2.length < cs.length) := by
  intro n
  induction n with
  | zero =>
    intro cs hlen _
    have : cs = [] := List.eq_nil_of_length_eq_zero (by omega)
    subst this
    left; rfl
  | succ n ih =>
    intro cs hlen h
    rcases cs with _ | ⟨c, r⟩
    · left; rfl
    · by_cases hsp : c = ' '
      · subst hsp
        rw [lexNext_ws_cons ctxDefault ' ' r rfl]
        have hr : isWsDoc r = true := h
        have hlr : r.length ≤ n := by simp at hlen; omega
        rcases ih r hlr hr with h1 | ⟨h1, h2, h3⟩
        · exact Or.inl h1
        · exact Or.inr ⟨h1, h2, by simp; omega⟩
      · by_cases htb : c = '\t'
        · subst htb
          rw [lexNext_ws_cons ctxDefault '\t' r rfl]
          have hr : isWsDoc r = true := h
          have hlr : r.length ≤ n := by simp at hlen; omega
          rcases ih r hlr hr with h1 | ⟨h1, h2, h3⟩
          · exact Or.inl h1
          · exact Or.inr ⟨h1, h2, by simp; omega⟩
        · by_cases hcr : c = '\r'
          · subst hcr
            rcases r with _ | ⟨c2, r2⟩
            · exact absurd h (by decide)
            · by_cases hc2 : c2 = '\n'
              · subst hc2
                right
                refine ⟨rfl, ?_, ?_⟩
                · have he : (lexNext ctxDefault ('\r' :: '\n' :: r2)).2 = r2 := rfl
                  rw [he]
                  exact h
                · have he : (lexNext ctxDefault ('\r' :: '\n' :: r2)).2 = r2 := rfl
                  rw [he]
                  simp
                  omega
              · have : isWsDoc ('\r' :: c2 :: r2) = false := by
                  apply isWsDoc_cons_false <;> try decide
                  intro r3 heq
                  injection heq with e1 e2
                  injection e2 with e3
                  exact absurd e3 hc2
                rw [this] at h
                exact absurd h (by simp)
          · by_cases hnl : c = '\n'
            · subst hnl
              right
              refine ⟨rfl, ?_, ?_⟩
              · have he : (lexNext ctxDefault ('\n' :: r)).2 = r := rfl
                rw [he]
                exact h
              · have he : (lexNext ctxDefault ('\n' :: r)).2 = r := rfl
                rw [he]
                simp
            · by_cases hsh : c = '#'
              · subst hsh
                have hw : wsComment r = true := h
                by_cases hA : (r.takeWhile (fun c => c ≠ '\n')).length = r.length
                · have hcom : scanComment ('#' :: r) =
                      some ((r.takeWhile (fun c => c ≠ '\n')).length + 1) := by
                    simp only [scanComment]
                    rw [if_pos hA, Nat.add_comm]
                  have hskip : skipTrivia ('#' :: r) = [] := by
                    unfold skipTrivia
                    rw [List.dropWhile_cons, if_neg (by decide), hcom]
                    dsimp only
                    rw [List.drop_succ_cons, drop_len_takeWhile]
                    exact length_takeWhile_eq _ r hA
                  left
                  unfold lexNext
                  rw [hskip]
                  rfl
                · rcases wsComment_dropWhile r hw with hdw | ⟨r2, hdw, hwd2⟩
                  · have he : r.takeWhile (fun c => c ≠ '\n') = r := by
                      have h1 := List.takeWhile_append_dropWhile (p := fun c => c ≠ '\n') (l := r)
                      rw [hdw, List.append_nil] at h1
                      exact h1
                    exact absurd (by rw [he]) hA
                  · have hlenr : r.length =
                        (r.takeWhile (fun c => c ≠ '\n')).length + (1 + r2.length) := by
                      have h1 := List.takeWhile_append_dropWhile (p := fun c => c ≠ '\n') (l := r)
                      rw [hdw] at h1
                      have h2 := congrArg List.length h1
                      rw [List.length_append, List.length_cons] at h2
                      omega
                    by_cases hL : (r.takeWhile (fun c => c ≠ '\n')).getLast? = some '\r'
                    · have hBne : (r.takeWhile (fun c => c ≠ '\n')).length ≠ 0 := by
                        intro e
                        rw [List.eq_nil_of_length_eq_zero e] at hL
                        simp at hL
                      have hcom : scanComment ('#' :: r) =
                          some (1 + (r.takeWhile (fun c => c ≠ '\n')).length - 1) := by
                        simp only [scanComment]
                        rw [if_neg hA, if_pos hL]
                      have hskip : skipTrivia ('#' :: r) = '\r' :: '\n' :: r2 := by
                        unfold skipTrivia
                        rw [List.dropWhile_cons, if_neg (by decide), hcom]
                        have h1 : 1 + (r.takeWhile (fun c => c ≠ '\n')).length - 1 =
                            ((r.takeWhile (fun c => c ≠ '\n')).length - 1) + 1 := by omega
                        rw [h1]
                        dsimp only
                        rw [List.drop_succ_cons]
                        have hre : r = r.takeWhile (fun c => c ≠ '\n') ++ '\n' :: r2 := by
                          have h3 := (List.takeWhile_append_dropWhile
                            (p := fun c => c ≠ '\n') (l := r)).symm
                          rw [hdw] at h3
                          exact h3
                        calc List.drop ((r.takeWhile (fun c => c ≠ '\n')).length - 1) r
                            = List.drop ((r.takeWhile (fun c => c ≠ '\n')).length - 1)
                              (r.takeWhile (fun c => c ≠ '\n') ++ '\n' :: r2) := by rw [← hre]
                          _ = List.drop ((r.takeWhile (fun c => c ≠ '\n')).length - 1)
                              (r.takeWhile (fun c => c ≠ '\n')) ++ '\n' :: r2 :=
                            List.drop_append_of_le_length (by omega)
                          _ = '\r' :: '\n' :: r2 := by
                            rw [drop_pred_getLast '\r' _ hL]
                            rfl
                      have hlex : lexNext ctxDefault ('#' :: r) = (.ok (some .newline), r2) := by
                        unfold lexNext
                        rw [hskip]
                        rfl
                      right
                      rw [hlex]
                      exact ⟨rfl, hwd2, by simp only [List.length_cons]; omega⟩
                    · have hcom : scanComment ('#' :: r) =
                          some (1 + (r.takeWhile (fun c => c ≠ '\n')).length) := by
                        simp only [scanComment]
                        rw [if_neg hA, if_neg hL]
                      have hskip : skipTrivia ('#' :: r) = '\n' :: r2 := by
                        unfold skipTrivia
                        rw [List.dropWhile_cons, if_neg (by decide), hcom]
                        rw [Nat.add_comm 1 _]
                        dsimp only
                        rw [List.drop_succ_cons, drop_len_takeWhile]
                        exact hdw
                      have hlex : lexNext ctxDefault ('#' :: r) = (.ok (some .newline), r2) := by
                        unfold lexNext
                        rw [hskip]
                        rfl
                      right
                      rw [hlex]
                      exact ⟨rfl, hwd2, by simp only [List.length_cons]; omega⟩
              · have : isWsDoc (c :: r) = false := by
                  apply isWsDoc_cons_false c r hsp htb hnl hsh
                  intro r3 heq
                  injection heq with e1
                  exact absurd e1 hcr
                rw [this] at h
                exact absurd h (by simp)

theorem c9_loop : ∀ (fuel : Nat) (st : PState), st.rest.length < fuel →
    isWsDoc st.rest = true → tomlLoop fuel st = .ok (.table st.root) := by
  intro fuel
  induction fuel with
  | zero => intro st hlt _; exact absurd hlt (by omega)
  | succ f ih =>
    intro st hlt hws
    rcases wsdoc_step st.rest.length st.rest le_rfl hws with h1 | ⟨h1, h2, h3⟩
    · unfold tomlLoop
      rw [h1]
    · unfold tomlLoop
      rw [h1]
      exact ih { st with rest := (lexNext ctxDefault st.rest).2 }
        (by show (lexNext ctxDefault st.rest).2.length < f; omega) h2

/-- C9: every input consisting only of spaces, tabs, newlines (`\n` or
`\r\n`) and `#` comments — including the empty string — is accepted by
from_str, which returns a table with no keys: each loop iteration of
Parser::toml either sees end of input (skip_trivia consumed everything)
or a Newline token and recurses on a shorter trivia-only remainder,
never touching the empty root. -/
theorem c9_trivia_only_documents (cs : List Char) (h : isWsDoc cs = true) :
    fromStr cs = .ok (.table []) :=
  c9_loop (cs.length + 1) ⟨cs, [], [], [], [], []⟩
    (by show cs.length < cs.length + 1; omega) h

theorem c9_trivia_only_documents_witness :
    isWsDoc "  # note\n\t\r\n# tail".toList = true ∧
    fromStr "  # note\n\t\r\n# tail".toList = .ok (.table []) :=
  ⟨by rfl, c9_trivia_only_documents "  # note\n\t\r\n# tail".toList (by rfl)⟩

theorem bare_ne (c d : Char) (hc : isBareChar c = true) (hd : isBareChar d = false) :
    c ≠ d := by
  intro e
  subst e
  rw [hc] at hd
  exact absurd hd (by decide)

theorem bare_not_ws (c : Char) (h : isBareChar c = true) : isWsChar c = false := by
  by_cases h1 : c = ' '
  · subst h1; exact absurd h (by decide)
  · by_cases h2 : c = '\t'
    · subst h2; exact absurd h (by decide)
    · simp [isWsChar, h1, h2]

theorem scanComment_not_hash (c : Char) (x : List Char) (h : c ≠ '#') :
    scanComment (c :: x) = none := by
  unfold scanComment
  split
  · rename_i r heq
    injection heq with h1
    exact absurd h1 h
  · rfl

theorem skipTrivia_nows (c : Char) (x : List Char) (hw : isWsChar c = false)
    (hh : c ≠ '#') : skipTrivia (c :: x) = c :: x := by
  unfold skipTrivia
  rw [List.dropWhile_cons, if_neg (by rw [hw]; exact Bool.false_ne_true),
    scanComment_not_hash c x hh]

theorem scanNewline_other (c : Char) (x : List Char) (h1 : c ≠ '\r') (h2 : c ≠ '\n') :
    scanNewline (c :: x) = none := by
  unfold scanNewline
  split
  · rename_i heq
    injection heq with ha
    exact absurd ha h1
  · rename_i heq
    injection heq with ha
    exact absurd ha h2
  · rfl

theorem takeWhile_bare_append (p : List Char) (b : Char) (x : List Char)
    (hp : ∀ c ∈ p, isBareChar c = true) (hb : isBareChar b = false) :
    (p ++ b :: x).takeWhile isBareChar = p ∧
    (p ++ b :: x).dropWhile isBareChar = b :: x := by
  induction p with
  | nil => simp [List.takeWhile_cons, List.dropWhile_cons, hb]
  | cons c t ih =>
    have hc : isBareChar c = true := hp c (by simp)
    have ht : ∀ d ∈ t, isBareChar d = true := fun d hd => hp d (by simp [hd])
    rcases ih ht with ⟨h1, h2⟩
    refine ⟨?_, ?_⟩
    · rw [List.cons_append, List.takeWhile_cons, if_pos hc, h1]
    · rw [List.cons_append, List.dropWhile_cons, if_pos hc, h2]

theorem scanBareKey_app (p : List Char) (b : Char) (x : List Char) (hne : p ≠ [])
    (hp : ∀ c ∈ p, isBareChar c = true) (hb : isBareChar b = false) :
    scanBareKey (p ++ b :: x) = some (.string p, b :: x) := by
  rcases takeWhile_bare_append p b x hp hb with ⟨h1, h2⟩
  unfold scanBareKey
  rw [h1, h2, if_neg (by simpa using hne)]

theorem lexNext_bare (p : List Char) (b : Char) (x : List Char) (hne : p ≠ [])
    (hp : ∀ c ∈ p, isBareChar c = true) (hb : isBareChar b = false) :
    lexNext ctxDefault (p ++ b :: x) = (.ok (some (.string p)), b :: x) := by
  obtain ⟨c, t, rfl⟩ : ∃ c t, p = c :: t := by
    cases p with
    | nil => exact absurd rfl hne
    | cons c t => exact ⟨c, t, rfl⟩
  have hc : isBareChar c = true := hp c (by simp)
  have hskip : skipTrivia (c :: (t ++ b :: x)) = c :: (t ++ b :: x) :=
    skipTrivia_nows c _ (bare_not_ws c hc) (bare_ne c '#' hc (by decide))
  have hnl : scanNewline (c :: (t ++ b :: x)) = none :=
    scanNewline_other c _ (bare_ne c '\r' hc (by decide)) (bare_ne c '\n' hc (by decide))
  have hpunct : scanPunct (c :: (t ++ b :: x)) = none := by
    unfold scanPunct
    dsimp only
    rw [if_neg (bare_ne c '=' hc (by decide)), if_neg (bare_ne c '.' hc (by decide)),
      if_neg (bare_ne c '\x7b' hc (by decide)), if_neg (bare_ne c '\x7d' hc (by decide)),
      if_neg (bare_ne c '[' hc (by decide)), if_neg (bare_ne c ']' hc (by decide)),
      if_neg (bare_ne c ',' hc (by decide))]
  have hbk : scanBareKey (c :: (t ++ b :: x)) = some (.string (c :: t), b :: x) := by
    rw [← List.cons_append]
    exact scanBareKey_app (c :: t) b x (by simp) hp hb
  unfold lexNext
  rw [List.cons_append, hskip, hnl, hpunct, hbk]
  rfl

theorem pRequireString_bare (p : List Char) (b : Char) (x : List Char) (hne : p ≠ [])
    (hp : ∀ c ∈ p, isBareChar c = true) (hb : isBareChar b = false) :
    pRequireString (p ++ b :: x) = .ok (p, b :: x) := by
  unfold pRequireString
  rw [lexNext_bare p b x hne hp hb]

theorem pKeyLoop_stop (f : Nat) (acc : List (List Char)) (cs : List Char)
    (o : Option Token) (h : (lexNext ctxDefault cs).1 = .ok o) (ho : o ≠ some .dot) :
    pKeyLoop (f + 1) acc cs = .ok (acc, cs) := by
  unfold pKeyLoop
  rw [h]
  cases o with
  | none => rfl
  | some t =>
    cases t
    case dot => exact absurd rfl ho
    all_goals rfl

theorem pKey_bare (f : Nat) (p : List Char) (b : Char) (x : List Char) (hne : p ≠ [])
    (hp : ∀ c ∈ p, isBareChar c = true) (hb : isBareChar b = false)
    (o : Option Token) (h : (lexNext ctxDefault (b :: x)).1 = .ok o) (ho : o ≠ some .dot) :
    pKey (f + 1) (p ++ b :: x) = .ok ([p], b :: x) := by
  unfold pKey
  rw [pRequireString_bare p b x hne hp hb]
  exact pKeyLoop_stop f [p] (b :: x) o h ho

theorem pTable_bare_nl (f : Nat) (p : List Char) (r2 : List Char) (hne : p ≠ [])
    (hp : ∀ c ∈ p, isBareChar c = true) :
    pTable (f + 1) ('[' :: (p ++ ']' :: '\n' :: r2)) = .ok ([p], r2) := by
  unfold pTable
  have h1 : pRequire .leftBracket ('[' :: (p ++ ']' :: '\n' :: r2)) =
      .ok (p ++ ']' :: '\n' :: r2) := rfl
  rw [h1]
  dsimp only
  rw [pKey_bare f p ']' ('\n' :: r2) hne hp (by decide)
    (some .rightBracket) rfl (by decide)]
  rfl

theorem pTable_bare_eof (f : Nat) (p : List Char) (hne : p ≠ [])
    (hp : ∀ c ∈ p, isBareChar c = true) :
    pTable (f + 1) ('[' :: (p ++ [']'])) = .ok ([p], []) := by
  unfold pTable
  have h1 : pRequire .leftBracket ('[' :: (p ++ [']'])) = .ok (p ++ [']']) := rfl
  rw [h1]
  dsimp only
  rw [pKey_bare f p ']' [] hne hp (by decide) (some .rightBracket) rfl (by decide)]
  rfl

theorem pAot_bare_nl (f : Nat) (p : List Char) (r2 : List Char) (hne : p ≠ [])
    (hp : ∀ c ∈ p, isBareChar c = true) :
    pArrayOfTables (f + 1) ('[' :: '[' :: (p ++ ']' :: ']' :: '\n' :: r2)) =
      .ok ([p], r2) := by
  unfold pArrayOfTables
  have h1 : pRequire .leftBracket ('[' :: '[' :: (p ++ ']' :: ']' :: '\n' :: r2)) =
      .ok ('[' :: (p ++ ']' :: ']' :: '\n' :: r2)) := rfl
  have h2 : pRequire .leftBracket ('[' :: (p ++ ']' :: ']' :: '\n' :: r2)) =
      .ok (p ++ ']' :: ']' :: '\n' :: r2) := rfl
  rw [h1]
  dsimp only
  rw [h2]
  dsimp only
  rw [pKey_bare f p ']' (']' :: '\n' :: r2) hne hp (by decide)
    (some .rightBracket) rfl (by decide)]
  rfl

theorem tblGet_cons_self (k : List Char) (v : Value) (t : Table) :
    tblGet ((k, v) :: t) k = some v := by
  unfold tblGet
  rw [if_pos rfl]

theorem tblGet_cons_ne (k1 k : List Char) (v : Value) (t : Table) (h : k1 ≠ k) :
    tblGet ((k1, v) :: t) k = tblGet t k := by
  show (if k1 = k then some v else tblGet t k) = tblGet t k
  rw [if_neg h]

theorem tblInsert_cons_self (k : List Char) (v w : Value) (t : Table) :
    tblInsert ((k, v) :: t) k w = (k, w) :: t := by
  unfold tblInsert
  rw [if_pos rfl]

theorem findOrCreate_single_new (root : Table) (p : List Char)
    (g : Table → Except Err Table) (h : tblGet root p = none) (sub : Table)
    (hg : g [] = .ok sub) :
    findOrCreateUpd root [p] g = .ok (tblInsert root p (.table sub)) := by
  unfold findOrCreateUpd
  rw [h]
  dsimp only
  unfold findOrCreateUpd
  rw [hg]

theorem findOrCreate_single_table (root : Table) (p : List Char)
    (g : Table → Except Err Table) (sub : Table) (h : tblGet root p = some (.table sub))
    (sub1 : Table) (hg : g sub = .ok sub1) :
    findOrCreateUpd root [p] g = .ok (tblInsert root p (.table sub1)) := by
  unfold findOrCreateUpd
  rw [h]
  dsimp only
  unfold findOrCreateUpd
  rw [hg]

theorem absKey_single_table (root : Table) (p : List Char) (sub : Table)
    (h : tblGet root p = some (.table sub)) :
    absoluteKeyString root [p] = .ok ('.' :: p) := by
  unfold absoluteKeyString absKeyGo
  rw [h]
  dsimp only
  rfl

theorem innerFuel_succ (cs : List Char) : innerFuel cs = (4 * cs.length + 7) + 1 := by
  unfold innerFuel
  omega

theorem findOrCreateUpd_dropLast_single (root : Table) (p : List Char)
    (g : Table → Except Err Table) :
    findOrCreateUpd root (List.dropLast [p]) g = g root := rfl

theorem absKey_dropLast_single (root : Table) (p : List Char) :
    absoluteKeyString root (List.dropLast [p]) = .ok [] := rfl

theorem tomlLoop_step_table_nl_ok (F : Nat) (st : PState) (p r2 : List Char)
    (hne : p ≠ []) (hp : ∀ c ∈ p, isBareChar c = true)
    (hrest : st.rest = '[' :: (p ++ ']' :: '\n' :: r2))
    (root1 : Table) (hfc : findOrCreateUpd st.root [p] (fun t => .ok t) = .ok root1)
    (absKey : List Char) (habs : absoluteKeyString root1 [p] = .ok absKey)
    (hcon : st.predefined_tables.contains absKey = false) :
    tomlLoop (F + 1) st =
      tomlLoop F { st with rest := r2
                           root := root1
                           current_table_key := [p]
                           predefined_tables := st.predefined_tables ++ [absKey] } := by
  conv_lhs => unfold tomlLoop
  rw [hrest]
  have h1 : lexNext ctxDefault ('[' :: (p ++ ']' :: '\n' :: r2)) =
      (.ok (some .leftBracket), p ++ ']' :: '\n' :: r2) := rfl
  rw [h1]
  dsimp only
  rw [lexNext_bare p ']' ('\n' :: r2) hne hp (by decide)]
  dsimp only
  rw [innerFuel_succ, pTable_bare_nl _ p r2 hne hp]
  dsimp only
  rw [hfc]
  dsimp only
  rw [habs]
  dsimp only
  rw [hcon]
  rfl

theorem tomlLoop_step_table_eof_err (F : Nat) (st : PState) (p : List Char)
    (hne : p ≠ []) (hp : ∀ c ∈ p, isBareChar c = true)
    (hrest : st.rest = '[' :: (p ++ [']']))
    (root1 : Table) (hfc : findOrCreateUpd st.root [p] (fun t => .ok t) = .ok root1)
    (absKey : List Char) (habs : absoluteKeyString root1 [p] = .ok absKey)
    (hcon : st.predefined_tables.contains absKey = true) :
    tomlLoop (F + 1) st = .error .parse := by
  unfold tomlLoop
  rw [hrest]
  have h1 : lexNext ctxDefault ('[' :: (p ++ [']'])) =
      (.ok (some .leftBracket), p ++ [']']) := rfl
  rw [h1]
  dsimp only
  rw [lexNext_bare p ']' [] hne hp (by decide)]
  dsimp only
  rw [innerFuel_succ, pTable_bare_eof _ p hne hp]
  dsimp only
  rw [hfc]
  dsimp only
  rw [habs]
  dsimp only
  rw [hcon]
  rfl

theorem tomlLoop_step_aot_new (F : Nat) (st : PState) (p r2 : List Char)
    (hne : p ≠ []) (hp : ∀ c ∈ p, isBareChar c = true)
    (hrest : st.rest = '[' :: '[' :: (p ++ ']' :: ']' :: '\n' :: r2))
    (hget : tblGet st.root p = none)
    (hcon : st.inlined_arrays.contains ('.' :: p) = false) :
    tomlLoop (F + 1) st =
      tomlLoop F { st with rest := r2
                           root := tblInsert st.root p (.array [.table []])
                           current_table_key := [p] } := by
  conv_lhs => unfold tomlLoop
  rw [hrest]
  have h1 : lexNext ctxDefault ('[' :: '[' :: (p ++ ']' :: ']' :: '\n' :: r2)) =
      (.ok (some .leftBracket), '[' :: (p ++ ']' :: ']' :: '\n' :: r2)) := rfl
  have h2 : lexNext ctxDefault ('[' :: (p ++ ']' :: ']' :: '\n' :: r2)) =
      (.ok (some .leftBracket), p ++ ']' :: ']' :: '\n' :: r2) := rfl
  rw [h1]
  dsimp only
  rw [h2]
  dsimp only
  rw [innerFuel_succ, pAot_bare_nl _ p r2 hne hp]
  dsimp only
  rw [show (([p] : List (List Char)).getLast?) = some p from rfl]
  dsimp only
  rw [findOrCreateUpd_dropLast_single]
  rw [hget]
  dsimp only
  rw [absKey_dropLast_single]
  dsimp only [List.nil_append]
  rw [hcon]
  rfl

theorem tomlLoop_step_aot_arr (F : Nat) (st : PState) (p r2 : List Char)
    (hne : p ≠ []) (hp : ∀ c ∈ p, isBareChar c = true)
    (hrest : st.rest = '[' :: '[' :: (p ++ ']' :: ']' :: '\n' :: r2))
    (a : List Value) (hget : tblGet st.root p = some (.array a))
    (hcon : st.inlined_arrays.contains ('.' :: p) = false) :
    tomlLoop (F + 1) st =
      tomlLoop F { st with rest := r2
                           root := tblInsert st.root p (.array (a ++ [.table []]))
                           current_table_key := [p] } := by
  conv_lhs => unfold tomlLoop
  rw [hrest]
  have h1 : lexNext ctxDefault ('[' :: '[' :: (p ++ ']' :: ']' :: '\n' :: r2)) =
      (.ok (some .leftBracket), '[' :: (p ++ ']' :: ']' :: '\n' :: r2)) := rfl
  have h2 : lexNext ctxDefault ('[' :: (p ++ ']' :: ']' :: '\n' :: r2)) =
      (.ok (some .leftBracket), p ++ ']' :: ']' :: '\n' :: r2) := rfl
  rw [h1]
  dsimp only
  rw [h2]
  dsimp only
  rw [innerFuel_succ, pAot_bare_nl _ p r2 hne hp]
  dsimp only
  rw [show (([p] : List (List Char)).getLast?) = some p from rfl]
  dsimp only
  rw [findOrCreateUpd_dropLast_single]
  rw [hget]
  dsimp only
  rw [absKey_dropLast_single]
  dsimp only [List.nil_append]
  rw [hcon]
  rfl

theorem tomlLoop_eof (F : Nat) (st : PState) (hrest : st.rest = []) :
    tomlLoop (F + 1) st = .ok (.table st.root) := by
  unfold tomlLoop
  rw [hrest]
  rfl

/-- C4 (amended): the header `[p]` written twice in a row is rejected: the
second occurrence resolves to the same absolute key, which the first
occurrence pushed onto predefined_tables.  (The original claim fails when an
`[[A]]` header intervenes, see the counterexample theorem.) -/
theorem c4_header_twice_rejected (p : List Char) (hne : p ≠ [])
    (hp : ∀ c ∈ p, isBareChar c = true) :
    fromStr (c4Doc p) = .error .parse := by
  have hfc1 : findOrCreateUpd ([] : Table) [p] (fun t => .ok t) =
      .ok [(p, Value.table [])] := by
    rw [findOrCreate_single_new [] p _ rfl [] rfl]
    rfl
  have habs1 : absoluteKeyString [(p, Value.table [])] [p] = .ok ('.' :: p) :=
    absKey_single_table _ p [] (tblGet_cons_self p (.table []) [])
  have hfc2 : findOrCreateUpd [(p, Value.table [])] [p] (fun t => .ok t) =
      .ok [(p, Value.table [])] := by
    rw [findOrCreate_single_table [(p, Value.table [])] p _ []
      (tblGet_cons_self p (.table []) []) [] rfl, tblInsert_cons_self]
  have h1 : tomlLoop ((c4Doc p).length + 1) ⟨c4Doc p, [], [], [], [], []⟩ =
      tomlLoop ((c4Doc p).length)
        ⟨'[' :: (p ++ [']']), [(p, Value.table [])], [p], ['.' :: p], [], []⟩ :=
    tomlLoop_step_table_nl_ok ((c4Doc p).length) ⟨c4Doc p, [], [], [], [], []⟩ p
      ('[' :: (p ++ [']'])) hne hp rfl [(p, Value.table [])] hfc1 ('.' :: p) habs1 rfl
  have hcon2 : List.contains (['.' :: p] : List (List Char)) ('.' :: p) = true := by simp
  have h2 : tomlLoop ((p ++ ']' :: '\n' :: '[' :: (p ++ [']'])).length + 1)
        ⟨'[' :: (p ++ [']']), [(p, Value.table [])], [p], ['.' :: p], [], []⟩ =
      .error .parse :=
    tomlLoop_step_table_eof_err _ _ p hne hp rfl [(p, Value.table [])] hfc2
      ('.' :: p) habs1 hcon2
  show tomlLoop ((c4Doc p).length + 1) ⟨c4Doc p, [], [], [], [], []⟩ = .error .parse
  rw [h1]
  exact h2

theorem c4_header_twice_rejected_witness :
    (['a'] : List Char) ≠ [] ∧ (∀ c ∈ (['a'] : List Char), isBareChar c = true) ∧
    fromStr (c4Doc ['a']) = .error .parse :=
  ⟨by decide, by decide, c4_header_twice_rejected ['a'] (by decide) (by decide)⟩

theorem aotDoc_length (p : List Char) : ∀ n : Nat,
    (aotDoc p n).length = n * (p.length + 5)
  | 0 => by simp [aotDoc]
  | n + 1 => by
    show ('[' :: '[' :: (p ++ ']' :: ']' :: '\n' :: aotDoc p n)).length = _
    simp only [List.length_cons, List.length_append]
    rw [aotDoc_length p n]
    ring

theorem replicate_snoc (x : Value) : ∀ n : Nat,
    List.replicate n x ++ [x] = List.replicate (n + 1) x := by
  intro n
  induction n with
  | zero => rfl
  | succ m ih =>
    rw [List.replicate_succ, List.cons_append, ih, ← List.replicate_succ]

theorem c5_loop (p : List Char) (hne : p ≠ []) (hp : ∀ c ∈ p, isBareChar c = true) :
    ∀ (n F k : Nat) (ctk pt : List (List Char)), n ≤ F →
    tomlLoop (F + 1)
        ⟨aotDoc p n, [(p, .array (List.replicate (k + 1) (.table [])))], ctk, pt, [], []⟩ =
      .ok (.table [(p, .array (List.replicate (k + 1 + n) (.table [])))]) := by
  intro n
  induction n with
  | zero =>
    intro F k ctk pt _
    exact tomlLoop_eof F _ rfl
  | succ m ih =>
    intro F k ctk pt hF
    have hstep := tomlLoop_step_aot_arr F
      ⟨aotDoc p (m + 1), [(p, .array (List.replicate (k + 1) (.table [])))], ctk, pt, [], []⟩
      p (aotDoc p m) hne hp rfl (List.replicate (k + 1) (.table []))
      (tblGet_cons_self p _ []) rfl
    rw [hstep, tblInsert_cons_self, replicate_snoc]
    cases F with
    | zero => omega
    | succ F1 =>
      rw [show k + 1 + (m + 1) = k + 1 + 1 + m from by omega]
      exact ih F1 (k + 1) [p] pt (by omega)

/-- C5: a document of N consecutive `[[p]]` headers parses successfully,
the value at p being an array of exactly N empty tables: the first header
creates a one-element array and each later header appends one fresh empty
table to it. -/
theorem c5_array_of_tables_append (p : List Char) (hne : p ≠ [])
    (hp : ∀ c ∈ p, isBareChar c = true) (N : Nat) (hN : 1 ≤ N) :
    fromStr (aotDoc p N) = .ok (.table [(p, .array (List.replicate N (.table [])))]) := by
  obtain ⟨M, rfl⟩ : ∃ M, N = M + 1 := ⟨N - 1, by omega⟩
  unfold fromStr
  have hstep := tomlLoop_step_aot_new ((aotDoc p (M + 1)).length)
    ⟨aotDoc p (M + 1), [], [], [], [], []⟩ p (aotDoc p M) hne hp rfl rfl rfl
  rw [hstep]
  have hlen : (aotDoc p (M + 1)).length =
      ((p ++ ']' :: ']' :: '\n' :: aotDoc p M).length + 1) + 1 := rfl
  rw [hlen]
  have hF : M ≤ (p ++ ']' :: ']' :: '\n' :: aotDoc p M).length + 1 := by
    have h1 := aotDoc_length p M
    have h2 : M ≤ M * (p.length + 5) := Nat.le_mul_of_pos_right M (by omega)
    simp only [List.length_append, List.length_cons]
    omega
  conv_rhs => rw [show M + 1 = 0 + 1 + M from by omega]
  exact c5_loop p hne hp M _ 0 [p] [] hF

theorem c5_array_of_tables_append_witness :
    (['a'] : List Char) ≠ [] ∧ (∀ c ∈ (['a'] : List Char), isBareChar c = true) ∧
    1 ≤ 2 ∧
    fromStr (aotDoc ['a'] 2) =
      .ok (.table [(['a'], .array (List.replicate 2 (.table [])))]) :=
  ⟨by decide, by decide, by decide,
   c5_array_of_tables_append ['a'] (by decide) (by decide) 2 (by decide)⟩

theorem tblInsert_cons_ne (k1 k : List Char) (v1 v : Value) (t : Table) (h : k1 ≠ k) :
    tblInsert ((k1, v1) :: t) k v = (k1, v1) :: tblInsert t k v := by
  show (if k1 = k then (k1, v) :: t else (k1, v1) :: tblInsert t k v) = _
  rw [if_neg h]

set_option smartUnfolding false in
set_option maxHeartbeats 4000000 in
/-- C1 (amended): after `a` holds an inline table, a later top-level dotted
key line `a.p = 1` targeting a descendant of `a` is rejected: either `p`
collides with the existing key `b` (duplicate-key error in insert_key_val),
or the new absolute key `.a.p` extends the inlined-table prefix `.a`
recorded when the inline value was stored, which the key/value branch
checks.  (A table header after the inline value is NOT rejected, see the
counterexample theorem.) -/
theorem c1_dotted_key_into_inline_rejected (p : List Char) (hne : p ≠ [])
    (hp : ∀ c ∈ p, isBareChar c = true) :
    fromStr (c1Doc p) = .error .parse := by
  by_cases hpb : p = ['b']
  · subst hpb
    rfl
  · have hbp : (['b'] : List Char) ≠ p := fun e => hpb e.symm
    have h1 : ∀ F, tomlLoop (F + 1) ⟨c1Doc p, [], [], [], [], []⟩ =
        tomlLoop F ⟨'a' :: '.' :: (p ++ ' ' :: '=' :: ' ' :: '1' :: []),
          [(['a'], .table [(['b'], .integer 1)])], [], [[]], [['.', 'a']], []⟩ :=
      fun F => rfl
    have hkey : ∀ g, pKey (g + 2) ('a' :: '.' :: (p ++ ' ' :: '=' :: ' ' :: '1' :: [])) =
        .ok ([['a'], p], ' ' :: '=' :: ' ' :: '1' :: []) := by
      intro g
      unfold pKey
      rw [show pRequireString ('a' :: '.' :: (p ++ ' ' :: '=' :: ' ' :: '1' :: [])) =
        .ok (['a'], '.' :: (p ++ ' ' :: '=' :: ' ' :: '1' :: [])) from rfl]
      dsimp only
      unfold pKeyLoop
      rw [show (lexNext ctxDefault ('.' :: (p ++ ' ' :: '=' :: ' ' :: '1' :: []))).1 =
        .ok (some .dot) from rfl]
      dsimp only
      rw [show pRequire .dot ('.' :: (p ++ ' ' :: '=' :: ' ' :: '1' :: [])) =
        .ok (p ++ ' ' :: '=' :: ' ' :: '1' :: []) from rfl]
      dsimp only
      rw [pRequireString_bare p ' ' ('=' :: ' ' :: '1' :: []) hne hp (by decide)]
      dsimp only
      exact pKeyLoop_stop g ([['a']] ++ [p]) _ (some .equal) rfl (by decide)
    have hkvp : pKeyValuePair
        (innerFuel ('a' :: '.' :: (p ++ ' ' :: '=' :: ' ' :: '1' :: [])))
        ('a' :: '.' :: (p ++ ' ' :: '=' :: ' ' :: '1' :: [])) =
        .ok ([['a'], p], .integer 1, []) := by
      rw [innerFuel_succ]
      unfold pKeyValuePair
      rw [show 4 * ('a' :: '.' :: (p ++ ' ' :: '=' :: ' ' :: '1' :: [])).length + 7 =
        (4 * ('a' :: '.' :: (p ++ ' ' :: '=' :: ' ' :: '1' :: [])).length + 5) + 2 from by omega]
      rw [hkey _]
      rfl
    have hg : (if (tblGet [(['b'], Value.integer 1)] p).isSome then
          (Except.error Err.parse : Except Err Table)
        else Except.ok (tblInsert [(['b'], Value.integer 1)] p (Value.integer 1))) =
        Except.ok [(['b'], Value.integer 1), (p, Value.integer 1)] := by
      rw [tblGet_cons_ne ['b'] p (Value.integer 1) [] hbp,
        tblInsert_cons_ne ['b'] p (Value.integer 1) (Value.integer 1) [] hbp]
      rfl
    have hct : curTabUpd [(['a'], Value.table [(['b'], Value.integer 1)])] []
        (fun table => insertKeyVal table [['a'], p] p (Value.integer 1)) =
        Except.ok [(['a'], Value.table [(['b'], Value.integer 1), (p, Value.integer 1)])] := by
      show insertKeyVal [(['a'], Value.table [(['b'], Value.integer 1)])] [['a'], p] p
        (Value.integer 1) = _
      unfold insertKeyVal
      rw [show List.dropLast [['a'], p] = [['a']] from rfl]
      rw [findOrCreate_single_table [(['a'], Value.table [(['b'], Value.integer 1)])] ['a']
        (fun sub => if (tblGet sub p).isSome then Except.error Err.parse
                    else Except.ok (tblInsert sub p (Value.integer 1)))
        [(['b'], Value.integer 1)] rfl [(['b'], Value.integer 1), (p, Value.integer 1)] hg]
      rfl
    have habs2 : absoluteKeyString
        [(['a'], Value.table [(['b'], Value.integer 1), (p, Value.integer 1)])]
        ([] ++ List.dropLast [['a'], p]) = .ok ['.', 'a'] := rfl
    have h2 : ∀ F, tomlLoop (F + 1)
        ⟨'a' :: '.' :: (p ++ ' ' :: '=' :: ' ' :: '1' :: []),
         [(['a'], .table [(['b'], .integer 1)])], [], [[]], [['.', 'a']], []⟩ =
        .error .parse := by
      intro F
      unfold tomlLoop
      dsimp only
      rw [show (lexNext ctxDefault ('a' :: '.' :: (p ++ ' ' :: '=' :: ' ' :: '1' :: []))).1 =
        .ok (some (.string ['a'])) from rfl]
      dsimp only
      rw [hkvp]
      dsimp only
      rw [show pRequireNewlineOrEof ([] : List Char) = .ok [] from rfl]
      dsimp only
      rw [show ([['a'], p] : List (List Char)).getLast? = some p from rfl]
      dsimp only
      rw [hct]
      dsimp only
      rw [habs2]
      rfl
    show tomlLoop ((c1Doc p).length + 1) ⟨c1Doc p, [], [], [], [], []⟩ = .error .parse
    rw [h1 ((c1Doc p).length)]
    exact h2 (' ' :: '=' :: ' ' :: '\x7b' :: 'b' :: ' ' :: '=' :: ' ' :: '1' :: ' ' :: '\x7d' ::
      '\n' :: 'a' :: '.' :: (p ++ ' ' :: '=' :: ' ' :: '1' :: [])).length

theorem c1_dotted_key_into_inline_rejected_witness :
    (['c'] : List Char) ≠ [] ∧ (∀ c ∈ (['c'] : List Char), isBareChar c = true) ∧
    fromStr (c1Doc ['c']) = .error .parse :=
  ⟨by decide, by decide, c1_dotted_key_into_inline_rejected ['c'] (by decide) (by decide)⟩

end TomlSpec
